/-
Verification development for the derivative-chromosome reconstruction
library (breakend-graph walker, greedy chaining engine, graph builder,
copy-number filter, classifier).

The TypeScript sources are shallowly embedded: JS arrays become `List`,
JS `Map`/`Set` become association lists / membership lists / functional
maps that reproduce the source's insertion-order and last-write-wins
semantics, JS numbers used for copy numbers and scores become `ℚ`
(exact rationals standing in for IEEE doubles), genomic positions become
`ℕ`, and the `1 | -1` orientation values become `ℤ`.  JS
`Array.prototype.sort` (a stable sort under a total comparator) is
modelled by `List.insertionSort`, which is stable for reflexive total
relations.  JS default string comparison (lexicographic by code unit) is
modelled by an executable lexicographic order on `String.data`.
-/
import Mathlib

namespace DerivChr

/-! ## A kernel-computable lexicographic order on strings

`String.decidableLT` does not reduce in the kernel, so we use our own
lexicographic comparison on the underlying character lists.  On the
chromosome names and identifiers appearing here it agrees with the
JS default string comparison (code-unit lexicographic). -/

def leChars : List Char → List Char → Bool
  | [], _ => true
  | _ :: _, [] => false
  | a :: as, b :: bs =>
    if a.toNat < b.toNat then true
    else if b.toNat < a.toNat then false
    else leChars as bs

def strLe (a b : String) : Prop := leChars a.data b.data = true

instance : DecidableRel strLe := fun a b => by
  unfold strLe
  infer_instance

/-! ## First-occurrence deduplication

JS `Set` and `Map` iterate keys in insertion order; adding an element
that is already present does not move it.  `firstDedup` reproduces the
key order of such a set built by a single pass over a list. -/

def dedupStep {α : Type} [DecidableEq α] (acc : List α) (x : α) : List α :=
  if x ∈ acc then acc else acc ++ [x]

def firstDedup {α : Type} [DecidableEq α] (l : List α) : List α :=
  l.foldl dedupStep []

/-! ## Kernel-computable rational `abs` / `min` / `max`

Mathlib's lattice-derived `|·|`, `⊓`, `⊔` on `ℚ` do not reduce in the
kernel, so the embedding uses these equivalent definitions. -/

def absQ (q : ℚ) : ℚ := if q < 0 then -q else q

def minQ (a b : ℚ) : ℚ := if a ≤ b then a else b

def maxQ (a b : ℚ) : ℚ := if a ≤ b then b else a


/-! ## Data model (from `src/types.ts`) -/

/-- One breakend record (`interface Breakend` in `types.ts`).  The
source's `end` field names are kept except where `end` is a Lean
keyword, in which case `stop` is used.  `orientation` is the source's
`1 | -1` stored as an integer. -/
structure Breakend where
  id : String
  chr : String
  pos : Nat
  orientation : Int
  mateId : Option String
  mateChr : Option String
  matePos : Option Nat
  mateOrientation : Option Int
  event : Option String
  jcn : Option ℚ
  jcnUncertainty : Option ℚ
deriving DecidableEq

/-- Helper for building breakends concisely in concrete scenarios: all
optional metadata besides the mate id is absent. -/
def mkB (id chr : String) (pos : Nat) (orientation : Int) (mateId : Option String) : Breakend :=
  ⟨id, chr, pos, orientation, mateId, none, none, none, none, none, none⟩

/-! ## Segment-graph walker (from `src/walk.ts`) -/

/-- `RefSegment` of `walk.ts` (`end` renamed to `stop`). -/
structure RefSegment where
  chr : String
  start : Nat
  stop : Nat
  index : Nat
deriving DecidableEq

inductive Orient where
  | forward
  | reverse
deriving DecidableEq

/-- `WalkSegment` of `walk.ts` (`end` renamed to `stop`). -/
structure WalkSegment where
  chr : String
  start : Nat
  stop : Nat
  orientation : Orient
  segmentIndex : Nat
deriving DecidableEq

structure WalkResult where
  refSegments : List RefSegment
  chains : List (List WalkSegment)
  orphanIndices : List Nat
deriving DecidableEq

/-- A port name `L{idx}` / `R{idx}` from `walk.ts`, kept structured:
the string encoding is injective and every use in the source goes
through the side tag and the parsed index. -/
inductive Side where
  | L
  | R
deriving DecidableEq

structure Port where
  side : Side
  idx : Nat
deriving DecidableEq

/-- The `externalConnections` JS `Map`, as a functional map with
last-write-wins `set`. -/
def ConnMap : Type := Port → Option Port

def connSet (m : ConnMap) (k v : Port) : ConnMap :=
  fun p => if p = k then some v else m p

def connEmpty : ConnMap := fun _ => none

/-- Positions observed on chromosome `c`, in the order the JS
`Set`-then-sort produces them: first-occurrence dedup, then ascending
sort. -/
def chrPositionsList (bs : List Breakend) (c : String) : List Nat :=
  List.insertionSort (· ≤ ·) (firstDedup ((bs.filter (fun b => b.chr = c)).map (·.pos)))

/-- Chromosome names sorted ascending (`[...chrPositions.keys()].sort()`). -/
def sortedChrNames (bs : List Breakend) : List String :=
  List.insertionSort strLe (firstDedup (bs.map (·.chr)))

/-- The per-chromosome segment build loop: consecutive boundary pairs
become segments, indices continuing the global running counter. -/
def mkSegs (c : String) : List Nat → Nat → List RefSegment
  | b1 :: b2 :: rest, k => ⟨c, b1, b2, k⟩ :: mkSegs c (b2 :: rest) (k + 1)
  | _, _ => []

/-- Boundary list `[0, p₁, …, pₙ, pₙ + 1000]` for a chromosome's sorted
position list (empty positions cannot occur for an observed chromosome;
the source would crash there, and the case is unreachable). -/
def boundariesFor (ps : List Nat) : List Nat :=
  match ps with
  | [] => []
  | p :: ps' => 0 :: (p :: ps') ++ [ps'.getLastD p + 1000]

/-- Build the `(chromosome, segments)` association in sorted chromosome
order, threading the global index counter (`allSegments.length`). -/
def buildChrSegmentsGo (posOf : String → List Nat) : List String → Nat → List (String × List RefSegment)
  | [], _ => []
  | c :: rest, k =>
    let segs := mkSegs c (boundariesFor (posOf c)) k
    (c, segs) :: buildChrSegmentsGo posOf rest (k + segs.length)

def buildChrSegments (bs : List Breakend) : List (String × List RefSegment) :=
  buildChrSegmentsGo (chrPositionsList bs) (sortedChrNames bs) 0

/-- `chrSegments.get(chr)` (the keys are distinct, so first match). -/
def lookupChr {α : Type} (m : List (String × α)) (c : String) : Option α :=
  (m.find? (fun p => p.1 = c)).map (·.2)

/-- `getBreakendPort` of `walk.ts`. -/
def getBreakendPort (b : Breakend) (chrSegs : List (String × List RefSegment)) : Option Port :=
  match lookupChr chrSegs b.chr with
  | none => none
  | some segs =>
    if b.orientation = 1 then
      (segs.find? (fun s => s.stop = b.pos)).map (fun s => ⟨Side.R, s.index⟩)
    else
      (segs.find? (fun s => s.start = b.pos)).map (fun s => ⟨Side.L, s.index⟩)

/-- The `byId` JS map: `Map.set` overwrites, so lookup returns the last
breakend in input order carrying the id. -/
def byId (bs : List Breakend) (i : String) : Option Breakend :=
  bs.foldl (fun acc b => if b.id = i then some b else acc) none

/-- The `breakendAt` JS map keyed by `` `${chr}:${pos}` ``: values are
pushed in input order, and the key encoding is injective because a
rendered number contains no colon, so a plain filter reproduces it. -/
def breakendAt (bs : List Breakend) (c : String) (p : Nat) : List Breakend :=
  bs.filter (fun b => b.chr = c ∧ b.pos = p)

/-- Wire the mate connection for one breakend sitting at a boundary:
`myPort` is the port severed on this side of the boundary. -/
def wireMate (bs : List Breakend) (chrSegs : List (String × List RefSegment))
    (conns : ConnMap) (myPort : Port) (b : Breakend) : ConnMap :=
  match b.mateId with
  | none => conns
  | some mid =>
    match byId bs mid with
    | none => conns
    | some mate =>
      match getBreakendPort mate chrSegs with
      | none => conns
      | some matePort => connSet (connSet conns myPort matePort) matePort myPort

/-- The per-boundary loop over the breakends at the boundary position,
tracking the two severance flags. -/
def wireBoundary (bs : List Breakend) (chrSegs : List (String × List RefSegment))
    (leftPort rightPort : Port) (bAt : List Breakend)
    (conns : ConnMap) : ConnMap × Bool × Bool :=
  bAt.foldl
    (fun st b =>
      let st1 : ConnMap × Bool × Bool :=
        if b.orientation = 1 then
          (wireMate bs chrSegs st.1 leftPort b, true, st.2.2)
        else st
      if b.orientation = -1 then
        (wireMate bs chrSegs st1.1 rightPort b, st1.2.1, true)
      else st1)
    (conns, false, false)

/-- Process all boundaries between consecutive segments of one
chromosome (the boundary position is the left segment's end). -/
def wireChr (bs : List Breakend) (chrSegs : List (String × List RefSegment))
    (segs : List RefSegment) (conns : ConnMap) : ConnMap :=
  (segs.zip segs.tail).foldl
    (fun conns pair =>
      let leftSeg := pair.1
      let rightSeg := pair.2
      let bAt := breakendAt bs leftSeg.chr leftSeg.stop
      let leftPort : Port := ⟨Side.R, leftSeg.index⟩
      let rightPort : Port := ⟨Side.L, rightSeg.index⟩
      let res := wireBoundary bs chrSegs leftPort rightPort bAt conns
      if !res.2.1 && !res.2.2 then
        connSet (connSet res.1 leftPort rightPort) rightPort leftPort
      else res.1)
    conns

def wireAll (bs : List Breakend) (chrSegs : List (String × List RefSegment)) : ConnMap :=
  chrSegs.foldl (fun conns p => wireChr bs chrSegs p.2 conns) connEmpty

/-- Free ports, in the source's pre-sort enumeration order. -/
def freePorts (allSegs : List RefSegment) (conns : ConnMap) : List Port :=
  allSegs.flatMap (fun s =>
    (if (conns ⟨Side.L, s.index⟩).isSome then [] else [⟨Side.L, s.index⟩]) ++
    (if (conns ⟨Side.R, s.index⟩).isSome then [] else [⟨Side.R, s.index⟩]))

/-- The free-port comparator: all `L` ports before all `R` ports, then
by ascending segment index. -/
def portLe (p q : Port) : Prop :=
  if p.side = q.side then p.idx ≤ q.idx else p.side = Side.L

instance : DecidableRel portLe := fun p q => by
  unfold portLe
  infer_instance

/-- The chain-walking loop.  The source's `while (true)` loop visits a
new segment on every iteration that continues, so fuel
`allSegments.length + 1` never runs out (see `walkLoop_fuel_irrel`). -/
def walkLoop (conns : ConnMap) (segs : List RefSegment) :
    Nat → List Nat → List WalkSegment → Port → List Nat × List WalkSegment
  | 0, v, c, _ => (v, c)
  | fuel + 1, v, c, cur =>
    if cur.idx ∈ v then (v, c)
    else
      match segs[cur.idx]? with
      | none => (cur.idx :: v, c)
      | some seg =>
        let ws : WalkSegment :=
          ⟨seg.chr, seg.start, seg.stop,
           if cur.side = Side.L then Orient.forward else Orient.reverse, cur.idx⟩
        let outPort : Port := ⟨if cur.side = Side.L then Side.R else Side.L, cur.idx⟩
        match conns outPort with
        | none => (cur.idx :: v, c ++ [ws])
        | some nxt => walkLoop conns segs fuel (cur.idx :: v) (c ++ [ws]) nxt

/-- The outer loop over sorted free ports, accumulating visited set and
emitted chains. -/
def walkAll (conns : ConnMap) (segs : List RefSegment) :
    List Port → List Nat → List (List WalkSegment) → List Nat × List (List WalkSegment)
  | [], v, cs => (v, cs)
  | p :: rest, v, cs =>
    if p.idx ∈ v then walkAll conns segs rest v cs
    else
      let r := walkLoop conns segs (segs.length + 1) v [] p
      if r.2.isEmpty then walkAll conns segs rest r.1 cs
      else walkAll conns segs rest r.1 (cs ++ [r.2])

/-- `walkBreakends` of `walk.ts`. -/
def walkBreakends (bs : List Breakend) : WalkResult :=
  let chrSegs := buildChrSegments bs
  let allSegs := chrSegs.flatMap (·.2)
  let conns := wireAll bs chrSegs
  let sortedFree := List.insertionSort portLe (freePorts allSegs conns)
  let r := walkAll conns allSegs sortedFree [] []
  { refSegments := allSegs
    chains := r.2
    orphanIndices := (allSegs.filter (fun s => ¬ s.index ∈ r.1)).map (·.index) }

/-! ## Graph builder (from `src/buildGraph.ts`) -/

inductive LinkKind where
  | SV
  | TI
  | DB
deriving DecidableEq

/-- `interface Link` of `types.ts` (the optional `priority` field is
carried separately by the scorer below, as in the source). -/
structure Link where
  type : LinkKind
  breakend1 : Breakend
  breakend2 : Breakend
deriving DecidableEq

/-- `isFacingPair` of `buildGraph.ts`. -/
def isFacingPair (a b : Breakend) : Prop :=
  a.chr = b.chr ∧
    (if a.pos ≤ b.pos then a.orientation = -1 ∧ b.orientation = 1
     else b.orientation = -1 ∧ a.orientation = 1)

instance : DecidablePred fun p : Breakend × Breakend => isFacingPair p.1 p.2 := fun _ => by
  unfold isFacingPair
  infer_instance

instance (a b : Breakend) : Decidable (isFacingPair a b) := by
  unfold isFacingPair
  infer_instance

/-- `isDeletionBridge` of `buildGraph.ts`. -/
def isDeletionBridge (a b : Breakend) : Prop :=
  a.chr = b.chr ∧
    (if a.pos ≤ b.pos then a.orientation = 1 ∧ b.orientation = -1
     else b.orientation = 1 ∧ a.orientation = -1)

instance (a b : Breakend) : Decidable (isDeletionBridge a b) := by
  unfold isDeletionBridge
  infer_instance

/-- Mate-link test used to skip pairs (`a.mateId === b.id || b.mateId === a.id`). -/
def areMates (a b : Breakend) : Prop :=
  a.mateId = some b.id ∨ b.mateId = some a.id

instance (a b : Breakend) : Decidable (areMates a b) := by
  unfold areMates
  infer_instance

/-- All ordered pairs `(l[i], l[j])` with `i < j`, in the source's
double-loop order. -/
def allPairs {α : Type} : List α → List (α × α)
  | [] => []
  | x :: xs => xs.map (fun y => (x, y)) ++ allPairs xs

/-- Classify each candidate pair into TI / DB lists, as the inner loop
body of `buildTiAndDbLinks` does. -/
def classifyPairs : List (Breakend × Breakend) → List Link × List Link
  | [] => ([], [])
  | (a, b) :: rest =>
    let r := classifyPairs rest
    if areMates a b then r
    else if isFacingPair a b then (⟨LinkKind.TI, a, b⟩ :: r.1, r.2)
    else if isDeletionBridge a b then (r.1, ⟨LinkKind.DB, a, b⟩ :: r.2)
    else r

/-- Breakends of one chromosome sorted ascending by position (JS stable
sort; `insertionSort` with a reflexive total relation is stable). -/
def posSorted (l : List Breakend) : List Breakend :=
  List.insertionSort (fun a b => a.pos ≤ b.pos) l

/-- `buildTiAndDbLinks` of `buildGraph.ts`: chromosome groups in JS
`Map` insertion order (first occurrence), each group position-sorted,
all pairs classified. -/
def buildTiAndDbLinks (bs : List Breakend) : List Link × List Link :=
  (firstDedup (bs.map (·.chr))).foldl
    (fun acc c =>
      let sorted := posSorted (bs.filter (fun b => b.chr = c))
      let r := classifyPairs (allPairs sorted)
      (acc.1 ++ r.1, acc.2 ++ r.2))
    ([], [])

/-- `buildSvLinks` of `buildGraph.ts`. -/
def buildSvLinks (bs : List Breakend) : List Link :=
  (bs.foldl
    (fun (st : List Link × List String) b =>
      match b.mateId with
      | none => st
      | some mid =>
        if b.id ∈ st.2 then st
        else
          match byId bs mid with
          | none => st
          | some mate => (st.1 ++ [⟨LinkKind.SV, b, mate⟩], st.2 ++ [b.id, mate.id]))
    ([], [])).1

structure BreakendGraph where
  breakends : List Breakend
  svLinks : List Link
  tiLinks : List Link
  dbLinks : List Link

/-- `buildGraph` of `buildGraph.ts`. -/
def buildGraph (bs : List Breakend) : BreakendGraph :=
  let r := buildTiAndDbLinks bs
  ⟨bs, buildSvLinks bs, r.1, r.2⟩

/-! ## Link scoring (from `src/chain.ts`) -/

inductive LinkType where
  | ASSEMBLY
  | ONLY
  | ADJACENT
  | JCN_MATCH
  | NEAREST
deriving DecidableEq

/-- The `linkCounts` map: occurrences of an id as an endpoint of any
candidate link (both `Map.set` increments of the loop). -/
def countLinks (links : List Link) (i : String) : Nat :=
  links.foldl
    (fun n l =>
      (n + (if l.breakend1.id = i then 1 else 0)) + (if l.breakend2.id = i then 1 else 0))
    0

/-- `scoreTiLink` of `chain.ts`.  Scores are exact rationals standing in
for JS doubles. -/
def scoreTiLink (link : Link) (linkCounts : String → Nat) : LinkType × ℚ :=
  if linkCounts link.breakend1.id = 1 ∨ linkCounts link.breakend2.id = 1 then
    (LinkType.ONLY, 4)
  else
    match link.breakend1.jcn, link.breakend2.jcn with
    | some j1, some j2 =>
      let diff := absQ (j1 - j2)
      let unc1 := link.breakend1.jcnUncertainty.getD (mkRat 1 2)
      let unc2 := link.breakend2.jcnUncertainty.getD (mkRat 1 2)
      if diff < mkRat 1 2 ∨ diff < unc1 + unc2 then (LinkType.JCN_MATCH, 2)
      else
        (LinkType.NEAREST, mkRat 1 (1 + (max link.breakend1.pos link.breakend2.pos
          - min link.breakend1.pos link.breakend2.pos)))
    | _, _ =>
      (LinkType.NEAREST, mkRat 1 (1 + (max link.breakend1.pos link.breakend2.pos
        - min link.breakend1.pos link.breakend2.pos)))

/-- The (chr, pos) sort used by `markAdjacentLinks` (`localeCompare` on
distinct chromosome names behaves lexicographically here). -/
def chrPosLe (a b : Breakend) : Prop :=
  if a.chr = b.chr then a.pos ≤ b.pos else strLe a.chr b.chr

instance : DecidableRel chrPosLe := fun a b => by
  unfold chrPosLe
  infer_instance

/-- The `adjacentPairs` key set: for each same-chromosome consecutive
pair of the (chr, pos)-sorted breakends, both `` `${a.id}:${b.id}` ``
join orders.  Keys are kept as the exact joined strings (ids may
contain colons, so the join is not injective — faithfully modelled). -/
def adjacentKeys (bs : List Breakend) : List String :=
  let sorted := List.insertionSort chrPosLe bs
  (sorted.zip sorted.tail).foldl
    (fun acc p =>
      if p.1.chr = p.2.chr then
        acc ++ [p.1.id ++ ":" ++ p.2.id, p.2.id ++ ":" ++ p.1.id]
      else acc)
    []

/-- `markAdjacentLinks` of `chain.ts`, as the per-link score assignment
(the source stores the same value in a `Map` keyed by the link). -/
def markAdjacentLinks (links : List Link) (bs : List Breakend) (link : Link) : LinkType × ℚ :=
  let base := scoreTiLink link (countLinks links)
  if (link.breakend1.id ++ ":" ++ link.breakend2.id) ∈ adjacentKeys bs ∧
      base.1 = LinkType.NEAREST then
    (LinkType.ADJACENT, 3)
  else base

/-! ## Copy-number filter (from `src/chainWithCN.ts`) -/

/-- `CopyNumberSegment` of `types.ts` (`end` renamed to `stop`);
coordinates and copy numbers are rationals standing in for JS doubles. -/
structure CopyNumberSegment where
  chr : String
  start : ℚ
  stop : ℚ
  majorAlleleCN : ℚ
  minorAlleleCN : ℚ
deriving DecidableEq

/-- `segmentClusterJcn` of `chainWithCN.ts`. -/
def segmentClusterJcn (chr : String) (start stop : ℚ)
    (cnSegments : List CopyNumberSegment) (backgroundPloidy : ℚ) : Option ℚ :=
  let overlapping := cnSegments.filter (fun s => s.chr = chr ∧ s.stop > start ∧ s.start < stop)
  if overlapping.isEmpty then none
  else
    let totalCN := (overlapping.map
      (fun s => (s.majorAlleleCN + s.minorAlleleCN) * (minQ s.stop stop - maxQ s.start start))).sum
    let totalLen := (overlapping.map (fun s => minQ s.stop stop - maxQ s.start start)).sum
    if totalLen = 0 then none
    else some (totalCN / totalLen - backgroundPloidy)

/-- `filterLinksByCN` of `chainWithCN.ts` (the `breakends` parameter is
unused by the source as well; `JCN_ZERO_THRESHOLD = 0.15`). -/
def filterLinksByCN (links : List Link) (breakends : List Breakend)
    (cnSegments : List CopyNumberSegment) (backgroundPloidy : ℚ) : List Link :=
  links.filter (fun link =>
    if link.breakend1.chr = link.breakend2.chr then
      match segmentClusterJcn link.breakend1.chr
          ((min link.breakend1.pos link.breakend2.pos : ℕ) : ℚ)
          ((max link.breakend1.pos link.breakend2.pos : ℕ) : ℚ)
          cnSegments backgroundPloidy with
      | none => true
      | some clusterJcn => clusterJcn ≥ mkRat 3 20
    else true)

/-! ## Classifier (from `src/classify.ts`) -/

inductive SVClass where
  | DEL
  | DUP
  | INV
  | TRA
  | COMPLEX
  | UNKNOWN
deriving DecidableEq

/-- `ChainSegment` of `types.ts` (`end` renamed to `stop`). -/
structure ChainSegment where
  chr : String
  start : Nat
  stop : Nat
  orientation : Orient
deriving DecidableEq

/-- `Chain` of `types.ts` (without the unused optional `jcn`). -/
structure Chain where
  segments : List ChainSegment
  openStart : Option Breakend
  openEnd : Option Breakend
  isClosed : Bool
deriving DecidableEq

/-- Number of distinct chromosomes among a chain's segments (the
source's `new Set(...).size`). -/
def segChrCount (segs : List ChainSegment) : Nat :=
  (firstDedup (segs.map (·.chr))).length

/-- The multi-segment tail of `classifyChain` (reached when the
simple-pair branch does not apply and `segments.length ≠ 0`). -/
def classifyChainMulti (chain : Chain) : SVClass :=
  if segChrCount chain.segments > 1 then
    if chain.segments.length > 2 then SVClass.COMPLEX else SVClass.TRA
  else
    if chain.segments.length = 2 ∧
        chain.segments.any (fun s => s.orientation = Orient.reverse) then SVClass.INV
    else if chain.segments.length > 2 then SVClass.COMPLEX
    else SVClass.UNKNOWN

/-- `classifyChain` of `classify.ts`. -/
def classifyChain (chain : Chain) : SVClass :=
  if chain.isClosed then SVClass.COMPLEX
  else
    match chain.openStart, chain.openEnd with
    | some b1, some b2 =>
      if chain.segments.length ≤ 1 then
        if b1.chr ≠ b2.chr then SVClass.TRA
        else
          let lower := if b1.pos ≤ b2.pos then b1 else b2
          let upper := if b1.pos ≤ b2.pos then b2 else b1
          if lower.orientation = 1 ∧ upper.orientation = -1 then SVClass.DEL
          else if lower.orientation = -1 ∧ upper.orientation = 1 then SVClass.DUP
          else if lower.orientation = upper.orientation then SVClass.INV
          else SVClass.UNKNOWN
      else classifyChainMulti chain
    | _, _ =>
      if chain.segments.length = 0 then SVClass.UNKNOWN
      else classifyChainMulti chain

/-! ## Chaining engine (from `src/chain.ts`) -/

/-- `makeSegment` of `chain.ts`. -/
def makeSegment (b1 b2 : Breakend) : ChainSegment :=
  if b1.chr ≠ b2.chr then ⟨b1.chr, b1.pos, b1.pos, Orient.forward⟩
  else
    let lower := if b1.pos ≤ b2.pos then b1 else b2
    let upper := if b1.pos ≤ b2.pos then b2 else b1
    ⟨lower.chr, lower.pos, upper.pos, Orient.forward⟩

/-- `interface PartialChain` of `chain.ts`. -/
structure WorkChain where
  segments : List ChainSegment
  breakendOrder : List Breakend
  startBreakend : Option Breakend
  endBreakend : Option Breakend
deriving DecidableEq

/-- The mutable state of `buildChains`' greedy loop. -/
structure ChainState where
  chains : List WorkChain
  used : List String
deriving DecidableEq

/-- `usedBreakends.add` (a JS `Set`: adding a present element is a
no-op). -/
def insertUsed (s : List String) (x : String) : List String :=
  if x ∈ s then s else x :: s

/-- Does this open end carry the given breakend id
(`c.startBreakend?.id === bid`)? -/
def endMatches (e : Option Breakend) (bid : String) : Bool :=
  match e with
  | none => false
  | some b => b.id = bid

/-- The chain-end scan of the greedy loop: later chains overwrite
earlier matches, and within one chain the start end is preferred
(`if … else if …` with no break).  Returns `(index, isStart)`. -/
def findEnd (chains : List WorkChain) (bid : String) : Option (Nat × Bool) :=
  chains.enum.foldl
    (fun acc p =>
      if endMatches p.2.startBreakend bid then some (p.1, true)
      else if endMatches p.2.endBreakend bid then some (p.1, false)
      else acc)
    none

/-- Apply one TI link to the state if one of the three guarded branches
of the loop body fires; `none` means the link is skipped. -/
def tryLink (st : ChainState) (link : Link) : Option ChainState :=
  if link.breakend1.id ∈ st.used ∧ link.breakend2.id ∈ st.used then none
  else
    match findEnd st.chains link.breakend1.id, findEnd st.chains link.breakend2.id with
    | some f1, some f2 =>
      if f1.1 ≠ f2.1 then
        match st.chains[f1.1]?, st.chains[f2.1]? with
        | some c1, some c2 =>
          some { chains := (st.chains.set f1.1
                  { segments := c1.segments ++ [makeSegment link.breakend1 link.breakend2] ++
                      c2.segments
                    breakendOrder := c1.breakendOrder ++ c2.breakendOrder
                    startBreakend := if f1.2 then c1.endBreakend else c1.startBreakend
                    endBreakend := if f2.2 then c2.endBreakend else c2.startBreakend }).eraseIdx
                  f2.1
                 used := insertUsed (insertUsed st.used link.breakend1.id) link.breakend2.id }
        | _, _ => none
      else none
    | some f1, none =>
      match st.chains[f1.1]? with
      | some c =>
        some { chains := st.chains.set f1.1
                { segments := c.segments ++ [makeSegment link.breakend1 link.breakend2]
                  breakendOrder := c.breakendOrder ++ [link.breakend2]
                  startBreakend := if f1.2 then some link.breakend2 else c.startBreakend
                  endBreakend := if f1.2 then c.endBreakend else some link.breakend2 }
               used := insertUsed st.used link.breakend1.id }
      | none => none
    | none, some f2 =>
      match st.chains[f2.1]? with
      | some c =>
        some { chains := st.chains.set f2.1
                { segments := c.segments ++ [makeSegment link.breakend1 link.breakend2]
                  breakendOrder := c.breakendOrder ++ [link.breakend1]
                  startBreakend := if f2.2 then some link.breakend1 else c.startBreakend
                  endBreakend := if f2.2 then c.endBreakend else some link.breakend1 }
               used := insertUsed st.used link.breakend2.id }
      | none => none
    | none, none => none

/-- Candidate links of one pass: at least one endpoint not yet used,
scored, and stably sorted by descending score. -/
def scoredSorted (ti : List Link) (bs : List Breakend) (used : List String) :
    List (Link × ℚ) :=
  List.insertionSort (fun a b : Link × ℚ => b.2 ≤ a.2)
    ((ti.filter (fun l => ¬ l.breakend1.id ∈ used ∨ ¬ l.breakend2.id ∈ used)).map
      (fun l => (l, (markAdjacentLinks ti bs l).2)))

/-- One pass of the greedy `while (changed)` loop: the first applicable
link in score order is applied (`break`), and `none` signals that a
full pass applied nothing (`changed` stays false). -/
def stepChains (ti : List Link) (bs : List Breakend) (st : ChainState) : Option ChainState :=
  (scoredSorted ti bs st.used).findSome? (fun p => tryLink st p.1)

/-- One partial chain seeded per SV link. -/
def initChainState (svLinks : List Link) : ChainState :=
  { chains := svLinks.map (fun l =>
      { segments := []
        breakendOrder := [l.breakend1, l.breakend2]
        startBreakend := some l.breakend1
        endBreakend := some l.breakend2 })
    used := [] }

/-- Iterate the greedy pass at most `n` times, stopping at the first
pass that applies nothing. -/
def chainsLoop (ti : List Link) (bs : List Breakend) : Nat → ChainState → ChainState
  | 0, st => st
  | n + 1, st =>
    match stepChains ti bs st with
    | none => st
    | some st' => chainsLoop ti bs n st'

/-- Endpoint ids of the candidate TI links (dedup'd). -/
def tiIds (ti : List Link) : List String :=
  firstDedup (ti.flatMap (fun l => [l.breakend1.id, l.breakend2.id]))

/-- Number of TI endpoint ids not yet absorbed. -/
def unusedCount (ti : List Link) (used : List String) : Nat :=
  ((tiIds ti).filter (fun i => ¬ i ∈ used)).length

/-- Weight of one open end: 1 when it names an already-used breakend. -/
def endUsedWeight (used : List String) (e : Option Breakend) : Nat :=
  match e with
  | none => 0
  | some b => if b.id ∈ used then 1 else 0

def chainEndWeight (used : List String) (c : WorkChain) : Nat :=
  endUsedWeight used c.startBreakend + endUsedWeight used c.endBreakend

/-- Number of open chain ends naming an already-used breakend. -/
def usedEndCount (st : ChainState) : Nat :=
  (st.chains.map (chainEndWeight st.used)).sum

/-- The termination measure for the greedy loop: every applied link
strictly decreases it. -/
def chainMeasure (ti : List Link) (st : ChainState) : Nat :=
  (2 * st.chains.length + 1) * unusedCount ti st.used + usedEndCount st

/-- `buildChains` of `chain.ts`: seed SV chains, run the greedy loop to
its fixpoint (the measure bounds the number of passes), convert. -/
def buildChains (bs : List Breakend) (svLinks tiLinks : List Link) : List Chain :=
  let st0 := initChainState svLinks
  let st := chainsLoop tiLinks bs (chainMeasure tiLinks st0 + 1) st0
  st.chains.map (fun c =>
    let isClosed :=
      match c.startBreakend, c.endBreakend with
      | some s, some e => s.id = e.id
      | _, _ => false
    { segments := c.segments
      openStart := if isClosed then none else c.startBreakend
      openEnd := if isClosed then none else c.endBreakend
      isClosed := isClosed })

/-! ## Specification-side definitions

These follow the specification's words (not the source) and exist only
to be compared with the source-derived definitions above. -/

/-- Spec §4.4: the length of the overlap of CN segment `s` with the
interval `[start, stop]` (zero when they do not overlap). -/
def overlapLen (s : CopyNumberSegment) (start stop : ℚ) : ℚ :=
  max 0 (min s.stop stop - max s.start start)

/-- Spec §4.4: total overlap weight of the CN segments on `chr` against
the TI interval. -/
def cnWeightTotal (chr : String) (start stop : ℚ) (cn : List CopyNumberSegment) : ℚ :=
  ((cn.filter (fun s => s.chr = chr)).map (fun s => overlapLen s start stop)).sum

/-- Spec §4.4: overlap-length-weighted sum of
`major_cn + minor_cn − background`. -/
def cnWeightedSum (chr : String) (start stop : ℚ) (cn : List CopyNumberSegment)
    (background : ℚ) : ℚ :=
  ((cn.filter (fun s => s.chr = chr)).map
    (fun s => (s.majorAlleleCN + s.minorAlleleCN - background) * overlapLen s start stop)).sum

/-- Modelled from the spec (§4.4 copy-number filter): retain a TI edge
iff its endpoints are on different chromosomes, or no CN segment
overlaps the spanned interval on the shared chromosome, or the
overlap-length-weighted mean of `major_cn + minor_cn − background` is
at least the zero-JCN threshold 0.15. -/
def cnRetainSpec (link : Link) (cn : List CopyNumberSegment) (background : ℚ) : Prop :=
  link.breakend1.chr ≠ link.breakend2.chr ∨
  (∀ s ∈ cn, s.chr = link.breakend1.chr →
    overlapLen s ((min link.breakend1.pos link.breakend2.pos : ℕ) : ℚ)
      ((max link.breakend1.pos link.breakend2.pos : ℕ) : ℚ) = 0) ∨
  (0 < cnWeightTotal link.breakend1.chr ((min link.breakend1.pos link.breakend2.pos : ℕ) : ℚ)
      ((max link.breakend1.pos link.breakend2.pos : ℕ) : ℚ) cn ∧
    cnWeightedSum link.breakend1.chr ((min link.breakend1.pos link.breakend2.pos : ℕ) : ℚ)
        ((max link.breakend1.pos link.breakend2.pos : ℕ) : ℚ) cn background /
      cnWeightTotal link.breakend1.chr ((min link.breakend1.pos link.breakend2.pos : ℕ) : ℚ)
        ((max link.breakend1.pos link.breakend2.pos : ℕ) : ℚ) cn ≥ 3/20)

/-- The trailing rows of the spec table (those not mentioning open
ends), applied first-match-first. -/
def classifyTableLate (chain : Chain) : SVClass :=
  if 2 ≤ chain.segments.length ∧ segChrCount chain.segments > 1 ∧
      chain.segments.length ≤ 2 then SVClass.TRA
  else if 2 ≤ chain.segments.length ∧ segChrCount chain.segments > 1 ∧
      chain.segments.length > 2 then SVClass.COMPLEX
  else if chain.segments.length = 2 ∧ segChrCount chain.segments = 1 ∧
      chain.segments.any (fun s => s.orientation = Orient.reverse) then SVClass.INV
  else if chain.segments.length > 2 then SVClass.COMPLEX
  else SVClass.UNKNOWN

/-- Modelled from the spec (§4.6 classification table): the rows of the
table, applied first-match-first, with "lower"/"upper" the open-end
breakends ordered by position.  RIGHT is orientation `1`, LEFT is
`-1`. -/
def classifyTable (chain : Chain) : SVClass :=
  if chain.isClosed then SVClass.COMPLEX
  else
    match chain.openStart, chain.openEnd with
    | some b1, some b2 =>
      let lower := if b1.pos ≤ b2.pos then b1 else b2
      let upper := if b1.pos ≤ b2.pos then b2 else b1
      if chain.segments.length ≤ 1 ∧ b1.chr = b2.chr ∧
          lower.orientation = 1 ∧ upper.orientation = -1 then SVClass.DEL
      else if chain.segments.length ≤ 1 ∧ b1.chr = b2.chr ∧
          lower.orientation = -1 ∧ upper.orientation = 1 then SVClass.DUP
      else if chain.segments.length ≤ 1 ∧ b1.chr = b2.chr ∧
          lower.orientation = upper.orientation then SVClass.INV
      else if chain.segments.length ≤ 1 ∧ b1.chr ≠ b2.chr then SVClass.TRA
      else classifyTableLate chain
    | _, _ => classifyTableLate chain

/-! ## Concrete scenario inputs -/

/-- Deletion scenario breakend `a` (`chr1 1000 a A[chr1:2000[`, so
direction RIGHT, mate `b`). -/
def delA : Breakend := mkB "a" "chr1" 1000 1 (some "b")

/-- Deletion scenario breakend `b` (`chr1 2000 b ]chr1:1000]C`, so
direction LEFT, mate `a`). -/
def delB : Breakend := mkB "b" "chr1" 2000 (-1) (some "a")

/-- Tandem-duplication scenario: LEFT-facing end of the back-facing
pair at position 1000, mated to `tdV`. -/
def tdU : Breakend := mkB "u" "chr1" 1000 (-1) (some "v")

/-- Tandem-duplication scenario: RIGHT-facing end of the back-facing
pair at position 2000, mated to `tdU`. -/
def tdV : Breakend := mkB "v" "chr1" 2000 1 (some "u")

/-- Tandem-duplication scenario: a third breakend at position 1000 with
an unresolved mate, so that the input has three breakends segmenting
the chromosome at 1000 and 2000 with a single back-facing mate pair. -/
def tdT : Breakend := mkB "t" "chr1" 1000 (-1) none

/-- Order-dependence scenario: RIGHT breakend at 1000 whose mate is
`pY`. -/
def pX : Breakend := mkB "x" "chr1" 1000 1 (some "y")

/-- Order-dependence scenario: LEFT breakend at 2000, unresolved mate. -/
def pY : Breakend := mkB "y" "chr1" 2000 (-1) none

/-- Order-dependence scenario: a second RIGHT breakend at 1000 whose
mate is `pW`. -/
def pZ : Breakend := mkB "z" "chr1" 1000 1 (some "w")

/-- Order-dependence scenario: LEFT breakend at 3000, unresolved mate. -/
def pW : Breakend := mkB "w" "chr1" 3000 (-1) none

/-- Adjacency-vs-JCN scenario: three breakends on one chromosome, the
first two with matching junction copy numbers. -/
def jA : Breakend := ⟨"p", "chr1", 100, -1, none, none, none, none, none, some 1, none⟩

def jB : Breakend := ⟨"q", "chr1", 200, 1, none, none, none, none, none, some 1, none⟩

def jC : Breakend := ⟨"r", "chr1", 300, 1, none, none, none, none, none, none, none⟩

/-- Candidate TI links among `jA`, `jB`, `jC`: every endpoint appears in
two candidate links, so none is in class ONLY. -/
def jLinks : List Link :=
  [⟨LinkKind.TI, jA, jB⟩, ⟨LinkKind.TI, jA, jC⟩, ⟨LinkKind.TI, jB, jC⟩]

/-- Adjacency scenario without JCN annotations. -/
def nA : Breakend := mkB "p" "chr1" 100 (-1) none

def nB : Breakend := mkB "q" "chr1" 200 1 none

def nC : Breakend := mkB "r" "chr1" 300 1 none

def nLinks : List Link :=
  [⟨LinkKind.TI, nA, nB⟩, ⟨LinkKind.TI, nA, nC⟩, ⟨LinkKind.TI, nB, nC⟩]

/-- Equal-position facing pair: RIGHT-facing breakend first in input
order. -/
def tieR : Breakend := mkB "tr" "chr1" 100 1 none

/-- Equal-position facing pair: LEFT-facing breakend second in input
order. -/
def tieL : Breakend := mkB "tl" "chr1" 100 (-1) none

/-! ## Helper lemmas: string order facts and sorted deduplication -/

theorem absQ_eq (q : ℚ) : absQ q = |q| := by
  unfold absQ
  by_cases h : q < 0
  · rw [if_pos h, abs_of_neg h]
  · rw [if_neg h, abs_of_nonneg (le_of_not_lt h)]

theorem minQ_eq (a b : ℚ) : minQ a b = min a b := by
  rw [minQ, min_def]

theorem maxQ_eq (a b : ℚ) : maxQ a b = max a b := by
  rw [maxQ, max_def]

theorem leChars_total : ∀ a b : List Char, leChars a b = true ∨ leChars b a = true := by
  intro a
  induction a with
  | nil => intro b; left; rfl
  | cons x xs ih =>
    intro b
    cases b with
    | nil => right; rfl
    | cons y ys =>
      by_cases hxy : x.toNat < y.toNat
      · left; simp [leChars, hxy]
      · by_cases hyx : y.toNat < x.toNat
        · right; simp [leChars, hyx]
        · rcases ih ys with h | h
          · left; simp [leChars, hxy, hyx, h]
          · right; simp [leChars, hxy, hyx, h]

theorem leChars_trans : ∀ a b c : List Char,
    leChars a b = true → leChars b c = true → leChars a c = true := by
  intro a
  induction a with
  | nil => intro b c _ _; rfl
  | cons x xs ih =>
    intro b c hab hbc
    cases b with
    | nil => simp [leChars] at hab
    | cons y ys =>
      cases c with
      | nil => simp [leChars] at hbc
      | cons z zs =>
        simp only [leChars] at hab hbc ⊢
        by_cases hxy : x.toNat < y.toNat
        · by_cases hyz : y.toNat < z.toNat
          · simp [Nat.lt_trans hxy hyz]
          · by_cases hzy : z.toNat < y.toNat
            · simp [leChars, hyz, hzy] at hbc
            · have : y.toNat = z.toNat := Nat.le_antisymm (Nat.le_of_not_lt hzy) (Nat.le_of_not_lt hyz)
              simp [this ▸ hxy]
        · by_cases hyx : y.toNat < x.toNat
          · simp [hxy, hyx] at hab
          · have hxy' : x.toNat = y.toNat := Nat.le_antisymm (Nat.le_of_not_lt hyx) (Nat.le_of_not_lt hxy)
            simp only [hxy, hyx, if_false, if_neg (lt_irrefl _)] at hab
            by_cases hyz : y.toNat < z.toNat
            · simp [hxy' ▸ hyz]
            · by_cases hzy : z.toNat < y.toNat
              · simp [hyz, hzy] at hbc
              · simp only [hyz, hzy, if_false] at hbc
                have hxz : ¬ x.toNat < z.toNat := by omega
                have hzx : ¬ z.toNat < x.toNat := by omega
                simp [hxz, hzx, ih ys zs hab hbc]

theorem leChars_antisymm : ∀ a b : List Char,
    leChars a b = true → leChars b a = true → a = b := by
  intro a
  induction a with
  | nil =>
    intro b _ hba
    cases b with
    | nil => rfl
    | cons y ys => simp [leChars] at hba
  | cons x xs ih =>
    intro b hab hba
    cases b with
    | nil => simp [leChars] at hab
    | cons y ys =>
      simp only [leChars] at hab hba
      by_cases hxy : x.toNat < y.toNat
      · have : ¬ y.toNat < x.toNat := by omega
        simp [hxy, this, lt_irrefl] at hba
      · by_cases hyx : y.toNat < x.toNat
        · simp [hxy, hyx] at hab
        · have hx : x = y := Char.eq_of_val_eq (by
            apply UInt32.eq_of_val_eq
            apply Fin.eq_of_val_eq
            exact Nat.le_antisymm (Nat.le_of_not_lt hyx) (Nat.le_of_not_lt hxy))
          simp only [hxy, hyx, if_false] at hab hba
          rw [hx, ih ys hab hba]

instance : IsTotal String strLe := ⟨fun a b => leChars_total a.data b.data⟩

instance : IsTrans String strLe := ⟨fun _ _ _ => leChars_trans _ _ _⟩

instance : IsAntisymm String strLe :=
  ⟨fun a b hab hba => by
    have h := leChars_antisymm _ _ hab hba
    cases a; cases b
    exact congrArg String.mk h⟩

theorem mem_foldl_dedupStep {α : Type} [DecidableEq α] :
    ∀ (l acc : List α) (x : α), x ∈ l.foldl dedupStep acc ↔ x ∈ acc ∨ x ∈ l := by
  intro l
  induction l with
  | nil => intro acc x; simp
  | cons y ys ih =>
    intro acc x
    simp only [List.foldl_cons, ih, dedupStep]
    by_cases hy : y ∈ acc
    · simp only [if_pos hy, List.mem_cons]
      constructor
      · rintro (h | h)
        · exact Or.inl h
        · exact Or.inr (Or.inr h)
      · rintro (h | h | h)
        · exact Or.inl h
        · exact Or.inl (h ▸ hy)
        · exact Or.inr h
    · simp only [if_neg hy, List.mem_append, List.mem_singleton, List.mem_cons]
      tauto

theorem mem_firstDedup {α : Type} [DecidableEq α] (l : List α) (x : α) :
    x ∈ firstDedup l ↔ x ∈ l := by
  unfold firstDedup
  rw [mem_foldl_dedupStep]
  simp

theorem nodup_foldl_dedupStep {α : Type} [DecidableEq α] :
    ∀ (l acc : List α), acc.Nodup → (l.foldl dedupStep acc).Nodup := by
  intro l
  induction l with
  | nil => intro acc h; exact h
  | cons y ys ih =>
    intro acc h
    simp only [List.foldl_cons]
    apply ih
    unfold dedupStep
    by_cases hy : y ∈ acc
    · simpa [hy]
    · simp only [if_neg hy, List.nodup_append]
      exact ⟨h, List.nodup_singleton y, by simpa using hy⟩

theorem nodup_firstDedup {α : Type} [DecidableEq α] (l : List α) :
    (firstDedup l).Nodup :=
  nodup_foldl_dedupStep l [] List.nodup_nil

/-- Two sorted deduplications of permuted lists agree. -/
theorem insertionSort_firstDedup_eq_of_perm {α : Type} [DecidableEq α]
    (r : α → α → Prop) [DecidableRel r] [IsTotal α r] [IsTrans α r] [IsAntisymm α r]
    {l l' : List α} (h : l.Perm l') :
    List.insertionSort r (firstDedup l) = List.insertionSort r (firstDedup l') := by
  have hperm : (firstDedup l).Perm (firstDedup l') := by
    rw [List.perm_ext_iff_of_nodup (nodup_firstDedup l) (nodup_firstDedup l')]
    intro a
    rw [mem_firstDedup, mem_firstDedup]
    exact ⟨fun ha => h.mem_iff.mp ha, fun ha => h.mem_iff.mpr ha⟩
  exact List.eq_of_perm_of_sorted
    (((List.perm_insertionSort r _).trans hperm).trans (List.perm_insertionSort r _).symm)
    (List.sorted_insertionSort r _) (List.sorted_insertionSort r _)

/-! ## C1: deletion scenario -/

/-- C1 (counterexample): on the deletion input the walker emits two
chains and an empty orphan list — the middle segment B has two free
ports and is walked as its own one-segment chain — contradicting the
claimed single chain with `orphan_indices = [B]`. -/
theorem C1_deletion_counterexample :
    (walkBreakends [delA, delB]).chains.length = 2 ∧
    (walkBreakends [delA, delB]).orphanIndices = [] := by
  decide

/-- C1 (amended): on the deletion input the walker produces exactly the
ref segments A=[0,1000), B=[1000,2000), C=[2000,3000), the chain
`A FORWARD → C FORWARD` followed by the one-segment chain `B FORWARD`,
and an empty `orphan_indices`. -/
theorem C1_deletion_walk :
    walkBreakends [delA, delB] =
      { refSegments := [⟨"chr1", 0, 1000, 0⟩, ⟨"chr1", 1000, 2000, 1⟩,
                        ⟨"chr1", 2000, 3000, 2⟩]
        chains := [[⟨"chr1", 0, 1000, Orient.forward, 0⟩,
                    ⟨"chr1", 2000, 3000, Orient.forward, 2⟩],
                   [⟨"chr1", 1000, 2000, Orient.forward, 1⟩]]
        orphanIndices := [] } := by
  decide

/-! ## C2: tandem-duplication scenario -/

/-- C2 (counterexample): on the tandem-duplication input no chain
contains segment B (index 1) at all — in particular B is not emitted as
a closed chain of length 1; it lands in `orphanIndices` (whose entries
the walker never labels closed: its chains carry no closed flag). -/
theorem C2_tandemdup_counterexample :
    ((walkBreakends [tdU, tdV, tdT]).chains.all
      (fun c => c.all (fun ws => ws.segmentIndex ≠ 1)) = true) ∧
    (walkBreakends [tdU, tdV, tdT]).orphanIndices = [1] := by
  decide

/-- C2 (amended): on the tandem-duplication input B=[1000,2000) is
reported via `orphan_indices` (its severed cycle is never entered),
while A and C are emitted as open one-segment chains; the walker does
not label closed loops as chains. -/
theorem C2_tandemdup_walk :
    walkBreakends [tdU, tdV, tdT] =
      { refSegments := [⟨"chr1", 0, 1000, 0⟩, ⟨"chr1", 1000, 2000, 1⟩,
                        ⟨"chr1", 2000, 3000, 2⟩]
        chains := [[⟨"chr1", 0, 1000, Orient.forward, 0⟩],
                   [⟨"chr1", 2000, 3000, Orient.forward, 2⟩]]
        orphanIndices := [1] } := by
  decide

/-! ## C5: order dependence of the walker -/

/-- C5 (counterexample): two permutations of the same breakend list on
which the walker produces different results.  Two RIGHT breakends share
position 1000 with different mates; the later one in input order wins
the last-write port wiring, so the chains differ. -/
theorem C5_order_counterexample :
    [pX, pY, pZ, pW].Perm [pZ, pW, pX, pY] ∧
    walkBreakends [pX, pY, pZ, pW] ≠ walkBreakends [pZ, pW, pX, pY] := by
  decide

/-! ## C4: adjacency scoring -/

/-- C4 (counterexample): a TI edge that is not in class ONLY (each
endpoint appears in two candidate edges) and whose endpoints are
consecutive in the (chr, pos)-sorted breakend order is nonetheless
scored `JCN_MATCH` (score 2), not `ADJACENT` (score 3), because the
source tests the JCN match before adjacency. -/
theorem C4_adjacent_counterexample :
    countLinks jLinks "p" = 2 ∧ countLinks jLinks "q" = 2 ∧
    ("p" ++ ":" ++ "q") ∈ adjacentKeys [jA, jB, jC] ∧
    markAdjacentLinks jLinks [jA, jB, jC] ⟨LinkKind.TI, jA, jB⟩ =
      (LinkType.JCN_MATCH, 2) := by
  have hs : scoreTiLink ⟨LinkKind.TI, jA, jB⟩ (countLinks jLinks) =
      (LinkType.JCN_MATCH, 2) := by
    unfold scoreTiLink
    rw [if_neg (by decide : ¬(countLinks jLinks jA.id = 1 ∨ countLinks jLinks jB.id = 1))]
    simp only [jA, jB]
    rw [if_pos (Or.inl (by rw [absQ_eq]; norm_num [Rat.mkRat_eq_div]))]
  refine ⟨by decide, by decide, by decide, ?_⟩
  unfold markAdjacentLinks
  rw [hs, if_neg]
  intro h
  exact absurd h.2 (by decide)

/-- C4 (amended): a TI edge that is neither in class ONLY nor in class
JCN_MATCH and whose endpoints are consecutive on the same chromosome
after sorting all breakends by (chr, pos) is assigned priority class
ADJACENT with score 3. -/
theorem C4_adjacent_score (links : List Link) (bs : List Breakend) (l : Link)
    (h1 : countLinks links l.breakend1.id ≠ 1)
    (h2 : countLinks links l.breakend2.id ≠ 1)
    (h3 : ∀ j1 j2, l.breakend1.jcn = some j1 → l.breakend2.jcn = some j2 →
      ¬(|j1 - j2| < mkRat 1 2 ∨ |j1 - j2| < l.breakend1.jcnUncertainty.getD (mkRat 1 2) +
        l.breakend2.jcnUncertainty.getD (mkRat 1 2)))
    (h4 : (l.breakend1.id ++ ":" ++ l.breakend2.id) ∈ adjacentKeys bs) :
    markAdjacentLinks links bs l = (LinkType.ADJACENT, 3) := by
  have hbase : (scoreTiLink l (countLinks links)).1 = LinkType.NEAREST := by
    unfold scoreTiLink
    rw [if_neg (by tauto)]
    cases hj1 : l.breakend1.jcn with
    | none => cases hj2 : l.breakend2.jcn <;> rfl
    | some j1 =>
      cases hj2 : l.breakend2.jcn with
      | none => rfl
      | some j2 =>
        simp only [absQ_eq]
        rw [if_neg (h3 j1 j2 hj1 hj2)]
  unfold markAdjacentLinks
  rw [if_pos ⟨h4, hbase⟩]

/-- C4 witness: a concrete non-ONLY, non-JCN, adjacent TI edge is
scored `(ADJACENT, 3)`. -/
theorem C4_adjacent_score_witness :
    countLinks nLinks "p" ≠ 1 ∧ countLinks nLinks "q" ≠ 1 ∧
    ("p" ++ ":" ++ "q") ∈ adjacentKeys [nA, nB, nC] ∧
    markAdjacentLinks nLinks [nA, nB, nC] ⟨LinkKind.TI, nA, nB⟩ =
      (LinkType.ADJACENT, 3) :=
  ⟨by decide, by decide, by decide,
   C4_adjacent_score nLinks [nA, nB, nC] ⟨LinkKind.TI, nA, nB⟩ (by decide) (by decide)
     (fun _ _ hj1 _ => Option.noConfusion hj1) (by decide)⟩

/-! ## C8: classifier against the specification table -/

theorem length_foldl_dedupStep_le {α : Type} [DecidableEq α] :
    ∀ (l acc : List α), (l.foldl dedupStep acc).length ≤ acc.length + l.length := by
  intro l
  induction l with
  | nil => intro acc; simp
  | cons y ys ih =>
    intro acc
    simp only [List.foldl_cons, List.length_cons]
    refine le_trans (ih (dedupStep acc y)) ?_
    unfold dedupStep
    by_cases hy : y ∈ acc
    · rw [if_pos hy]; omega
    · rw [if_neg hy]; simp; omega

theorem segChrCount_le_length (segs : List ChainSegment) :
    segChrCount segs ≤ segs.length := by
  unfold segChrCount firstDedup
  have := length_foldl_dedupStep_le (segs.map (·.chr)) []
  simpa using this

theorem segChrCount_pos (segs : List ChainSegment) (h : segs ≠ []) :
    1 ≤ segChrCount segs := by
  unfold segChrCount
  rcases List.exists_mem_of_ne_nil segs h with ⟨s, hs⟩
  have : s.chr ∈ firstDedup (segs.map (·.chr)) := by
    rw [mem_firstDedup]
    exact List.mem_map_of_mem _ hs
  exact List.length_pos.mpr (List.ne_nil_of_mem this)

theorem classifyChainMulti_eq_late (c : Chain) (h : 1 ≤ c.segments.length) :
    classifyChainMulti c = classifyTableLate c := by
  unfold classifyChainMulti classifyTableLate
  have hne : c.segments ≠ [] := by
    intro hnil
    rw [hnil] at h
    simp at h
  have hcle := segChrCount_le_length c.segments
  have hcpos := segChrCount_pos c.segments hne
  set L := c.segments.length with hL
  set K := segChrCount c.segments with hK
  set A := c.segments.any (fun s => decide (s.orientation = Orient.reverse)) with hA
  by_cases hgt : K > 1
  · by_cases h3 : L > 2
    · rw [if_pos hgt, if_pos h3,
        if_neg (show ¬(2 ≤ L ∧ K > 1 ∧ L ≤ 2) from fun hx => by omega),
        if_pos (show 2 ≤ L ∧ K > 1 ∧ L > 2 from ⟨by omega, hgt, h3⟩)]
    · rw [if_pos hgt, if_neg h3,
        if_pos (show 2 ≤ L ∧ K > 1 ∧ L ≤ 2 from ⟨by omega, hgt, by omega⟩)]
  · have h1 : K = 1 := by omega
    by_cases h2 : L = 2 ∧ A = true
    · rw [if_neg hgt, if_pos h2,
        if_neg (show ¬(2 ≤ L ∧ K > 1 ∧ L ≤ 2) from fun hx => hgt hx.2.1),
        if_neg (show ¬(2 ≤ L ∧ K > 1 ∧ L > 2) from fun hx => hgt hx.2.1),
        if_pos (show L = 2 ∧ K = 1 ∧ A = true from ⟨h2.1, h1, h2.2⟩)]
    · by_cases h3 : L > 2
      · rw [if_neg hgt, if_neg h2, if_pos h3,
          if_neg (show ¬(2 ≤ L ∧ K > 1 ∧ L ≤ 2) from fun hx => hgt hx.2.1),
          if_neg (show ¬(2 ≤ L ∧ K > 1 ∧ L > 2) from fun hx => hgt hx.2.1),
          if_neg (show ¬(L = 2 ∧ K = 1 ∧ A = true) from fun hx => h2 ⟨hx.1, hx.2.2⟩)]
      · rw [if_neg hgt, if_neg h2, if_neg h3,
          if_neg (show ¬(2 ≤ L ∧ K > 1 ∧ L ≤ 2) from fun hx => hgt hx.2.1),
          if_neg (show ¬(2 ≤ L ∧ K > 1 ∧ L > 2) from fun hx => hgt hx.2.1),
          if_neg (show ¬(L = 2 ∧ K = 1 ∧ A = true) from fun hx => h2 ⟨hx.1, hx.2.2⟩)]

/-- C8: `classifyChain` returns exactly the label of the
specification's classification table on every chain. -/
theorem classifyChain_eq_table (c : Chain) : classifyChain c = classifyTable c := by
  unfold classifyChain classifyTable
  by_cases hc : c.isClosed
  · rw [if_pos hc, if_pos hc]
  · rw [if_neg hc, if_neg hc]
    cases hs : c.openStart with
    | none =>
      by_cases hlen : c.segments.length = 0
      · rw [if_pos hlen]
        unfold classifyTableLate
        rw [if_neg (show ¬(2 ≤ c.segments.length ∧ segChrCount c.segments > 1 ∧
              c.segments.length ≤ 2) from fun hx => absurd hx.1 (by omega)),
          if_neg (show ¬(2 ≤ c.segments.length ∧ segChrCount c.segments > 1 ∧
              c.segments.length > 2) from fun hx => absurd hx.1 (by omega)),
          if_neg (show ¬(c.segments.length = 2 ∧ segChrCount c.segments = 1 ∧
              (c.segments.any fun s => decide (s.orientation = Orient.reverse)) = true) from
            fun hx => absurd hx.1 (by omega)),
          if_neg (show ¬(c.segments.length > 2) from by omega)]
      · rw [if_neg hlen]
        exact classifyChainMulti_eq_late c (by omega)
    | some b1 =>
      cases he : c.openEnd with
      | none =>
        by_cases hlen : c.segments.length = 0
        · rw [if_pos hlen]
          unfold classifyTableLate
          rw [if_neg (show ¬(2 ≤ c.segments.length ∧ segChrCount c.segments > 1 ∧
                c.segments.length ≤ 2) from fun hx => absurd hx.1 (by omega)),
            if_neg (show ¬(2 ≤ c.segments.length ∧ segChrCount c.segments > 1 ∧
                c.segments.length > 2) from fun hx => absurd hx.1 (by omega)),
            if_neg (show ¬(c.segments.length = 2 ∧ segChrCount c.segments = 1 ∧
                (c.segments.any fun s => decide (s.orientation = Orient.reverse)) = true) from
              fun hx => absurd hx.1 (by omega)),
            if_neg (show ¬(c.segments.length > 2) from by omega)]
        · rw [if_neg hlen]
          exact classifyChainMulti_eq_late c (by omega)
      | some b2 =>
        dsimp only
        set LB := if b1.pos ≤ b2.pos then b1 else b2 with hLB
        set UB := if b1.pos ≤ b2.pos then b2 else b1 with hUB
        by_cases hlen : c.segments.length ≤ 1
        · rw [if_pos hlen]
          by_cases hchr : b1.chr = b2.chr
          · rw [if_neg (show ¬(b1.chr ≠ b2.chr) from fun hx => hx hchr)]
            by_cases hDEL : LB.orientation = 1 ∧ UB.orientation = -1
            · rw [if_pos hDEL,
                if_pos (show c.segments.length ≤ 1 ∧ b1.chr = b2.chr ∧
                  LB.orientation = 1 ∧ UB.orientation = -1 from ⟨hlen, hchr, hDEL⟩)]
            · rw [if_neg hDEL,
                if_neg (show ¬(c.segments.length ≤ 1 ∧ b1.chr = b2.chr ∧
                  LB.orientation = 1 ∧ UB.orientation = -1) from fun hx => hDEL hx.2.2)]
              by_cases hDUP : LB.orientation = -1 ∧ UB.orientation = 1
              · rw [if_pos hDUP,
                  if_pos (show c.segments.length ≤ 1 ∧ b1.chr = b2.chr ∧
                    LB.orientation = -1 ∧ UB.orientation = 1 from ⟨hlen, hchr, hDUP⟩)]
              · rw [if_neg hDUP,
                  if_neg (show ¬(c.segments.length ≤ 1 ∧ b1.chr = b2.chr ∧
                    LB.orientation = -1 ∧ UB.orientation = 1) from fun hx => hDUP hx.2.2)]
                by_cases hINV : LB.orientation = UB.orientation
                · rw [if_pos hINV,
                    if_pos (show c.segments.length ≤ 1 ∧ b1.chr = b2.chr ∧
                      LB.orientation = UB.orientation from ⟨hlen, hchr, hINV⟩)]
                · rw [if_neg hINV,
                    if_neg (show ¬(c.segments.length ≤ 1 ∧ b1.chr = b2.chr ∧
                      LB.orientation = UB.orientation) from fun hx => hINV hx.2.2),
                    if_neg (show ¬(c.segments.length ≤ 1 ∧ b1.chr ≠ b2.chr) from
                      fun hx => hx.2 hchr)]
                  unfold classifyTableLate
                  rw [if_neg (show ¬(2 ≤ c.segments.length ∧ segChrCount c.segments > 1 ∧
                        c.segments.length ≤ 2) from fun hx => absurd hx.1 (by omega)),
                    if_neg (show ¬(2 ≤ c.segments.length ∧ segChrCount c.segments > 1 ∧
                        c.segments.length > 2) from fun hx => absurd hx.1 (by omega)),
                    if_neg (show ¬(c.segments.length = 2 ∧ segChrCount c.segments = 1 ∧
                        (c.segments.any fun s => decide (s.orientation = Orient.reverse)) = true) from
                      fun hx => absurd hx.1 (by omega)),
                    if_neg (show ¬(c.segments.length > 2) from by omega)]
          · rw [if_pos (show b1.chr ≠ b2.chr from hchr),
              if_neg (show ¬(c.segments.length ≤ 1 ∧ b1.chr = b2.chr ∧
                LB.orientation = 1 ∧ UB.orientation = -1) from fun hx => hchr hx.2.1),
              if_neg (show ¬(c.segments.length ≤ 1 ∧ b1.chr = b2.chr ∧
                LB.orientation = -1 ∧ UB.orientation = 1) from fun hx => hchr hx.2.1),
              if_neg (show ¬(c.segments.length ≤ 1 ∧ b1.chr = b2.chr ∧
                LB.orientation = UB.orientation) from fun hx => hchr hx.2.1),
              if_pos (show c.segments.length ≤ 1 ∧ b1.chr ≠ b2.chr from ⟨hlen, hchr⟩)]
        · rw [if_neg hlen,
            if_neg (show ¬(c.segments.length ≤ 1 ∧ b1.chr = b2.chr ∧
              LB.orientation = 1 ∧ UB.orientation = -1) from fun hx => hlen hx.1),
            if_neg (show ¬(c.segments.length ≤ 1 ∧ b1.chr = b2.chr ∧
              LB.orientation = -1 ∧ UB.orientation = 1) from fun hx => hlen hx.1),
            if_neg (show ¬(c.segments.length ≤ 1 ∧ b1.chr = b2.chr ∧
              LB.orientation = UB.orientation) from fun hx => hlen hx.1),
            if_neg (show ¬(c.segments.length ≤ 1 ∧ b1.chr ≠ b2.chr) from fun hx => hlen hx.1)]
          exact classifyChainMulti_eq_late c (by omega)

/-! ## C6: copy-number filter -/

theorem overlapLen_nonneg (s : CopyNumberSegment) (lo hi : ℚ) :
    0 ≤ overlapLen s lo hi :=
  le_max_left _ _

theorem overlapLen_eq_of_pred (s : CopyNumberSegment) (lo hi : ℚ)
    (hwf : s.start < s.stop) (hlohi : lo ≤ hi)
    (h1 : lo < s.stop) (h2 : s.start < hi) :
    overlapLen s lo hi = min s.stop hi - max s.start lo := by
  unfold overlapLen
  have hle : max s.start lo ≤ min s.stop hi :=
    le_min (max_le (le_of_lt hwf) (le_of_lt h1)) (max_le (le_of_lt h2) hlohi)
  rw [max_eq_right (by linarith)]

theorem overlapLen_eq_zero_of_not_pred (s : CopyNumberSegment) (lo hi : ℚ)
    (h : ¬(lo < s.stop ∧ s.start < hi)) :
    overlapLen s lo hi = 0 := by
  unfold overlapLen
  rcases not_and_or.mp h with h1 | h2
  · have : min s.stop hi ≤ max s.start lo :=
      le_trans (min_le_left _ _) (le_trans (le_of_not_lt h1) (le_max_right _ _))
    rw [max_eq_left (by linarith)]
  · have : min s.stop hi ≤ max s.start lo :=
      le_trans (min_le_right _ _) (le_trans (le_of_not_lt h2) (le_max_left _ _))
    rw [max_eq_left (by linarith)]

/-- The code's per-overlap sums (over the overlap-predicate filter) agree
with the spec's sums over all CN segments of the chromosome weighted by
clamped overlap length. -/
theorem sum_filter_overlap (chr : String) (lo hi : ℚ) (hlohi : lo ≤ hi)
    (f : CopyNumberSegment → ℚ) :
    ∀ cn : List CopyNumberSegment, (∀ s ∈ cn, s.start < s.stop) →
    ((cn.filter (fun s => s.chr = chr ∧ s.stop > lo ∧ s.start < hi)).map
      (fun s => f s * (minQ s.stop hi - maxQ s.start lo))).sum
    = ((cn.filter (fun s => s.chr = chr)).map (fun s => f s * overlapLen s lo hi)).sum := by
  intro cn
  induction cn with
  | nil => intro _; rfl
  | cons s t ih =>
    intro hwf
    have hwt : ∀ x ∈ t, x.start < x.stop := fun x hx => hwf x (List.mem_cons_of_mem _ hx)
    have hws : s.start < s.stop := hwf s (List.mem_cons_self _ _)
    by_cases hchr : s.chr = chr
    · by_cases hrest : s.stop > lo ∧ s.start < hi
      · rw [List.filter_cons_of_pos (by simp [hchr, hrest.1, hrest.2]),
          List.filter_cons_of_pos (by simp [hchr]),
          List.map_cons, List.map_cons, List.sum_cons, List.sum_cons, ih hwt,
          minQ_eq, maxQ_eq,
          overlapLen_eq_of_pred s lo hi hws hlohi hrest.1 hrest.2]
      · rw [List.filter_cons_of_neg (by simp [hchr, hrest]),
          List.filter_cons_of_pos (by simp [hchr]),
          List.map_cons, List.sum_cons, ih hwt,
          overlapLen_eq_zero_of_not_pred s lo hi (by tauto), mul_zero, zero_add]
    · rw [List.filter_cons_of_neg (by simp [hchr]),
        List.filter_cons_of_neg (by simp [hchr]), ih hwt]

theorem cnWeightTotal_nonneg (chr : String) (lo hi : ℚ) (cn : List CopyNumberSegment) :
    0 ≤ cnWeightTotal chr lo hi cn := by
  unfold cnWeightTotal
  apply List.sum_nonneg
  intro x hx
  rcases List.mem_map.mp hx with ⟨s, _, rfl⟩
  exact overlapLen_nonneg s lo hi

theorem cnWeightTotal_eq_zero_iff (chr : String) (lo hi : ℚ) (cn : List CopyNumberSegment) :
    cnWeightTotal chr lo hi cn = 0 ↔
      ∀ s ∈ cn, s.chr = chr → overlapLen s lo hi = 0 := by
  unfold cnWeightTotal
  induction cn with
  | nil => simp
  | cons s t ih =>
    by_cases hchr : s.chr = chr
    · rw [List.filter_cons_of_pos (by simp [hchr]), List.map_cons, List.sum_cons]
      have hs0 : 0 ≤ overlapLen s lo hi := overlapLen_nonneg s lo hi
      have ht0 : 0 ≤ ((t.filter (fun x => x.chr = chr)).map
          (fun x => overlapLen x lo hi)).sum := by
        apply List.sum_nonneg
        intro x hx
        rcases List.mem_map.mp hx with ⟨x', _, rfl⟩
        exact overlapLen_nonneg x' lo hi
      constructor
      · intro h x hx hxc
        rcases List.mem_cons.mp hx with rfl | hx'
        · linarith
        · exact ih.mp (by linarith) x hx' hxc
      · intro h
        have h1 : overlapLen s lo hi = 0 := h s (List.mem_cons_self _ _) hchr
        have h2 := ih.mpr (fun x hx hxc => h x (List.mem_cons_of_mem _ hx) hxc)
        rw [h1, h2, add_zero]
    · rw [List.filter_cons_of_neg (by simp [hchr])]
      constructor
      · intro h x hx hxc
        rcases List.mem_cons.mp hx with rfl | hx'
        · exact absurd hxc hchr
        · exact ih.mp h x hx' hxc
      · intro h
        exact ih.mpr (fun x hx hxc => h x (List.mem_cons_of_mem _ hx) hxc)

theorem cnWeightedSum_eq (chr : String) (lo hi : ℚ) (cn : List CopyNumberSegment) (bg : ℚ) :
    cnWeightedSum chr lo hi cn bg =
      ((cn.filter (fun s => s.chr = chr)).map
        (fun s => (s.majorAlleleCN + s.minorAlleleCN) * overlapLen s lo hi)).sum
      - bg * cnWeightTotal chr lo hi cn := by
  unfold cnWeightedSum cnWeightTotal
  induction (cn.filter (fun s => s.chr = chr)) with
  | nil => simp
  | cons s t ih =>
    simp only [List.map_cons, List.sum_cons, ih]
    ring

/-- C6: the CN filter retains a TI edge iff the specification's
retention rule holds, for any CN segment list whose segments are
well-formed (`start < end`, the data-model invariant). -/
theorem filterLinksByCN_iff_spec (links : List Link) (bs : List Breakend)
    (cn : List CopyNumberSegment) (bg : ℚ) (l : Link)
    (hwf : ∀ s ∈ cn, s.start < s.stop) :
    l ∈ filterLinksByCN links bs cn bg ↔ l ∈ links ∧ cnRetainSpec l cn bg := by
  unfold filterLinksByCN
  rw [List.mem_filter]
  refine and_congr_right (fun _ => ?_)
  set chr := l.breakend1.chr with hchrdef
  set lo : ℚ := ((min l.breakend1.pos l.breakend2.pos : ℕ) : ℚ) with hlodef
  set hi : ℚ := ((max l.breakend1.pos l.breakend2.pos : ℕ) : ℚ) with hhidef
  have hlohi : lo ≤ hi := by
    rw [hlodef, hhidef]
    exact_mod_cast min_le_max
  by_cases hchr : l.breakend1.chr = l.breakend2.chr
  · rw [if_pos hchr]
    unfold cnRetainSpec
    have hWeq : ((cn.filter (fun s => s.chr = chr ∧ s.stop > lo ∧ s.start < hi)).map
        (fun s => minQ s.stop hi - maxQ s.start lo)).sum = cnWeightTotal chr lo hi cn := by
      have := sum_filter_overlap chr lo hi hlohi (fun _ => 1) cn hwf
      unfold cnWeightTotal
      simpa using this
    have hTeq : ((cn.filter (fun s => s.chr = chr ∧ s.stop > lo ∧ s.start < hi)).map
        (fun s => (s.majorAlleleCN + s.minorAlleleCN) * (minQ s.stop hi - maxQ s.start lo))).sum
        = ((cn.filter (fun s => s.chr = chr)).map
          (fun s => (s.majorAlleleCN + s.minorAlleleCN) * overlapLen s lo hi)).sum :=
      sum_filter_overlap chr lo hi hlohi (fun s => s.majorAlleleCN + s.minorAlleleCN) cn hwf
    unfold segmentClusterJcn
    by_cases hO : (cn.filter (fun s => s.chr = chr ∧ s.stop > lo ∧ s.start < hi)).isEmpty
    · rw [if_pos hO]
      have hW0 : cnWeightTotal chr lo hi cn = 0 := by
        rw [← hWeq, List.isEmpty_iff.mp hO]
        rfl
      simp only [decide_eq_true_eq]
      constructor
      · intro _
        exact Or.inr (Or.inl ((cnWeightTotal_eq_zero_iff chr lo hi cn).mp hW0))
      · intro _
        trivial
    · rw [if_neg hO]
      by_cases hW : ((cn.filter (fun s => s.chr = chr ∧ s.stop > lo ∧ s.start < hi)).map
          (fun s => minQ s.stop hi - maxQ s.start lo)).sum = 0
      · rw [if_pos hW]
        have hW0 : cnWeightTotal chr lo hi cn = 0 := by rw [← hWeq, hW]
        simp only [decide_eq_true_eq]
        constructor
        · intro _
          exact Or.inr (Or.inl ((cnWeightTotal_eq_zero_iff chr lo hi cn).mp hW0))
        · intro _
          trivial
      · rw [if_neg hW]
        have hWpos : 0 < cnWeightTotal chr lo hi cn := by
          rcases lt_or_eq_of_le (cnWeightTotal_nonneg chr lo hi cn) with h | h
          · exact h
          · exact absurd (hWeq.trans h.symm) hW
        have hWne : cnWeightTotal chr lo hi cn ≠ 0 := ne_of_gt hWpos
        simp only [decide_eq_true_eq]
        have hmk : (mkRat 3 20 : ℚ) = 3/20 := by
          rw [Rat.mkRat_eq_div]
          norm_num
        have harith : ((cn.filter (fun s => s.chr = chr)).map
              (fun s => (s.majorAlleleCN + s.minorAlleleCN) * overlapLen s lo hi)).sum
              / cnWeightTotal chr lo hi cn - bg
            = cnWeightedSum chr lo hi cn bg / cnWeightTotal chr lo hi cn := by
          rw [cnWeightedSum_eq, sub_div, mul_div_assoc, div_self hWne, mul_one]
        constructor
        · intro h
          refine Or.inr (Or.inr ⟨hWpos, ?_⟩)
          rw [← harith, ← hTeq, ← hWeq]
          rw [hWeq, hTeq] at h
          rw [hmk] at h
          rw [hWeq, hTeq]
          exact h
        · intro h
          rcases h with h | h | h
          · exact absurd hchr h
          · exact absurd ((cnWeightTotal_eq_zero_iff chr lo hi cn).mpr h) hWne
          · rw [hmk, hWeq, hTeq, harith]
            exact h.2
  · rw [if_neg hchr]
    simp only [decide_eq_true_eq]
    constructor
    · intro _
      exact Or.inl hchr
    · intro _
      trivial

/-- C6 witness: a concrete link, CN list and background at which the
filter's decision matches the specification rule. -/
theorem filterLinksByCN_iff_spec_witness :
    (∀ s ∈ [(⟨"chr1", 0, 1500, 1, 1⟩ : CopyNumberSegment)], s.start < s.stop) ∧
    ((⟨LinkKind.TI, nA, nB⟩ : Link) ∈
        filterLinksByCN [⟨LinkKind.TI, nA, nB⟩] [] [⟨"chr1", 0, 1500, 1, 1⟩] 2 ↔
      (⟨LinkKind.TI, nA, nB⟩ : Link) ∈ [(⟨LinkKind.TI, nA, nB⟩ : Link)] ∧
        cnRetainSpec ⟨LinkKind.TI, nA, nB⟩ [⟨"chr1", 0, 1500, 1, 1⟩] 2) :=
  ⟨by norm_num,
   filterLinksByCN_iff_spec [⟨LinkKind.TI, nA, nB⟩] [] [⟨"chr1", 0, 1500, 1, 1⟩] 2
     ⟨LinkKind.TI, nA, nB⟩ (by norm_num)⟩

/-! ## C9: every input breakend maps to a port -/

theorem mem_sortedChrNames (bs : List Breakend) (b : Breakend) (hb : b ∈ bs) :
    b.chr ∈ sortedChrNames bs := by
  unfold sortedChrNames
  rw [(List.perm_insertionSort strLe _).mem_iff, mem_firstDedup]
  exact List.mem_map_of_mem _ hb

theorem mem_chrPositionsList (bs : List Breakend) (b : Breakend) (hb : b ∈ bs) :
    b.pos ∈ chrPositionsList bs b.chr := by
  unfold chrPositionsList
  rw [(List.perm_insertionSort _ _).mem_iff, mem_firstDedup]
  exact List.mem_map_of_mem _ (List.mem_filter.mpr ⟨hb, by simp⟩)

theorem lookupChr_buildChrSegmentsGo (posOf : String → List Nat) (c : String) :
    ∀ (names : List String) (k0 : Nat), c ∈ names →
    ∃ k, lookupChr (buildChrSegmentsGo posOf names k0) c =
      some (mkSegs c (boundariesFor (posOf c)) k) := by
  intro names
  induction names with
  | nil => intro k0 h; simp at h
  | cons c0 rest ih =>
    intro k0 h
    by_cases hc : c0 = c
    · refine ⟨k0, ?_⟩
      subst hc
      unfold buildChrSegmentsGo lookupChr
      rw [List.find?_cons_of_pos _ (by simp)]
      rfl
    · rcases List.mem_cons.mp h with rfl | h'
      · exact absurd rfl hc
      · rcases ih (k0 + (mkSegs c0 (boundariesFor (posOf c0)) k0).length) h' with ⟨k, hk⟩
        refine ⟨k, ?_⟩
        unfold buildChrSegmentsGo lookupChr
        rw [List.find?_cons_of_neg _ (by simp [hc])]
        exact hk

theorem mkSegs_map_stop (c : String) :
    ∀ (bounds : List Nat) (k : Nat), (mkSegs c bounds k).map (·.stop) = bounds.tail := by
  intro bounds
  induction bounds with
  | nil => intro k; rfl
  | cons b1 rest ih =>
    intro k
    cases rest with
    | nil => rfl
    | cons b2 rest' =>
      show b2 :: (mkSegs c (b2 :: rest') (k + 1)).map (·.stop) = b2 :: rest'
      rw [ih (k + 1)]
      rfl

theorem mkSegs_map_start (c : String) :
    ∀ (bounds : List Nat) (k : Nat), (mkSegs c bounds k).map (·.start) = bounds.dropLast := by
  intro bounds
  induction bounds with
  | nil => intro k; rfl
  | cons b1 rest ih =>
    intro k
    cases rest with
    | nil => rfl
    | cons b2 rest' =>
      show b1 :: (mkSegs c (b2 :: rest') (k + 1)).map (·.start) = (b1 :: b2 :: rest').dropLast
      rw [ih (k + 1)]
      rfl

/-- C9: every breakend of an input whose positions are at least 1 maps
to a port of the walker's segment graph: RIGHT breakends to the R-port
of the segment ending at their position, all other orientations to the
L-port of the segment starting there — `getBreakendPort` never returns
`none` on an input breakend. -/
theorem getBreakendPort_total (bs : List Breakend) (hpos : ∀ b ∈ bs, 1 ≤ b.pos)
    (b : Breakend) (hb : b ∈ bs) :
    ∃ segs s, lookupChr (buildChrSegments bs) b.chr = some segs ∧ s ∈ segs ∧
      ((b.orientation = 1 ∧ s.stop = b.pos ∧
          getBreakendPort b (buildChrSegments bs) = some ⟨Side.R, s.index⟩) ∨
       (b.orientation ≠ 1 ∧ s.start = b.pos ∧
          getBreakendPort b (buildChrSegments bs) = some ⟨Side.L, s.index⟩)) := by
  have hchr : b.chr ∈ sortedChrNames bs := mem_sortedChrNames bs b hb
  rcases lookupChr_buildChrSegmentsGo (chrPositionsList bs) b.chr (sortedChrNames bs) 0 hchr
    with ⟨k, hlook⟩
  have hlook' : lookupChr (buildChrSegments bs) b.chr =
      some (mkSegs b.chr (boundariesFor (chrPositionsList bs b.chr)) k) := hlook
  set ps := chrPositionsList bs b.chr with hps
  have hmem : b.pos ∈ ps := mem_chrPositionsList bs b hb
  have hps_ne : ps ≠ [] := List.ne_nil_of_mem hmem
  set segs := mkSegs b.chr (boundariesFor ps) k with hsegs
  by_cases horient : b.orientation = 1
  · have hstop : b.pos ∈ segs.map (·.stop) := by
      rw [hsegs, mkSegs_map_stop]
      cases hcase : ps with
      | nil => exact absurd hcase hps_ne
      | cons p ps' =>
        unfold boundariesFor
        show b.pos ∈ (p :: ps') ++ [ps'.getLastD p + 1000]
        exact List.mem_append_left _ (hcase ▸ hmem)
    rcases List.mem_map.mp hstop with ⟨s0, hs0mem, hs0stop⟩
    have hfind : ∃ s1, segs.find? (fun s => s.stop = b.pos) = some s1 := by
      cases hf : segs.find? (fun s => s.stop = b.pos) with
      | none =>
        exact absurd (by simpa using List.find?_eq_none.mp hf s0 hs0mem) (by simp [hs0stop])
      | some s1 => exact ⟨s1, rfl⟩
    rcases hfind with ⟨s1, hs1⟩
    refine ⟨segs, s1, hlook', List.mem_of_find?_eq_some hs1, Or.inl ⟨horient, ?_, ?_⟩⟩
    · simpa using List.find?_some hs1
    · simp only [getBreakendPort, hlook']
      rw [if_pos horient, hs1]
      rfl
  · have hstart : b.pos ∈ segs.map (·.start) := by
      rw [hsegs, mkSegs_map_start]
      cases hcase : ps with
      | nil => exact absurd hcase hps_ne
      | cons p ps' =>
        unfold boundariesFor
        have : (0 :: (p :: ps') ++ [ps'.getLastD p + 1000]).dropLast = 0 :: p :: ps' := by
          rw [show (0 :: (p :: ps') ++ [ps'.getLastD p + 1000]) =
            (0 :: p :: ps') ++ [ps'.getLastD p + 1000] from rfl]
          rw [List.dropLast_concat]
        rw [this]
        exact List.mem_cons_of_mem _ (hcase ▸ hmem)
    rcases List.mem_map.mp hstart with ⟨s0, hs0mem, hs0start⟩
    have hfind : ∃ s1, segs.find? (fun s => s.start = b.pos) = some s1 := by
      cases hf : segs.find? (fun s => s.start = b.pos) with
      | none =>
        exact absurd (by simpa using List.find?_eq_none.mp hf s0 hs0mem) (by simp [hs0start])
      | some s1 => exact ⟨s1, rfl⟩
    rcases hfind with ⟨s1, hs1⟩
    refine ⟨segs, s1, hlook', List.mem_of_find?_eq_some hs1, Or.inr ⟨horient, ?_, ?_⟩⟩
    · simpa using List.find?_some hs1
    · simp only [getBreakendPort, hlook']
      rw [if_neg horient, hs1]
      rfl

/-- C9 witness: the deletion input's breakends all map to ports. -/
theorem getBreakendPort_total_witness :
    (∀ b ∈ [delA, delB], 1 ≤ b.pos) ∧ delA ∈ [delA, delB] ∧
    (∃ segs s, lookupChr (buildChrSegments [delA, delB]) delA.chr = some segs ∧ s ∈ segs ∧
      ((delA.orientation = 1 ∧ s.stop = delA.pos ∧
          getBreakendPort delA (buildChrSegments [delA, delB]) = some ⟨Side.R, s.index⟩) ∨
       (delA.orientation ≠ 1 ∧ s.start = delA.pos ∧
          getBreakendPort delA (buildChrSegments [delA, delB]) = some ⟨Side.L, s.index⟩))) :=
  ⟨by decide, by decide,
   getBreakendPort_total [delA, delB] (by decide) delA (by decide)⟩

/-! ## C5 (amended): the segmentation is permutation-invariant -/

/-- C5 (amended): for every permutation of the breakend list the walker
produces the same ref segments (the chains and orphan indices can
differ, as `C5_order_counterexample` shows). -/
theorem walkBreakends_perm_refSegments (l l' : List Breakend) (h : l.Perm l') :
    (walkBreakends l).refSegments = (walkBreakends l').refSegments := by
  have h1 : sortedChrNames l = sortedChrNames l' := by
    unfold sortedChrNames
    exact insertionSort_firstDedup_eq_of_perm strLe (h.map (·.chr))
  have h2 : ∀ c, chrPositionsList l c = chrPositionsList l' c := by
    intro c
    unfold chrPositionsList
    exact insertionSort_firstDedup_eq_of_perm (· ≤ ·)
      ((h.filter (fun b => decide (b.chr = c))).map (·.pos))
  have h3 : buildChrSegments l = buildChrSegments l' := by
    unfold buildChrSegments
    rw [h1]
    have : chrPositionsList l = chrPositionsList l' := funext h2
    rw [this]
  show (buildChrSegments l).flatMap (·.2) = (buildChrSegments l').flatMap (·.2)
  rw [h3]

/-- C5 amended-theorem witness at the counterexample's permutation
pair. -/
theorem walkBreakends_perm_refSegments_witness :
    [pX, pY, pZ, pW].Perm [pZ, pW, pX, pY] ∧
    (walkBreakends [pX, pY, pZ, pW]).refSegments =
      (walkBreakends [pZ, pW, pX, pY]).refSegments :=
  ⟨by decide,
   walkBreakends_perm_refSegments [pX, pY, pZ, pW] [pZ, pW, pX, pY] (by decide)⟩

/-! ## C3: the walk partitions the ref segments -/

/-- Each call of the walking loop appends a block of walk segments with
fresh, in-range, pairwise distinct indices, and the visited set grows by
exactly those indices (within range). -/
theorem walkLoop_spec (conns : ConnMap) (segs : List RefSegment) :
    ∀ (fuel : Nat) (v : List Nat) (c : List WalkSegment) (cur : Port),
    ∃ d : List WalkSegment,
      (walkLoop conns segs fuel v c cur).2 = c ++ d ∧
      (d.map (·.segmentIndex)).Nodup ∧
      (∀ i ∈ d.map (·.segmentIndex), ¬ i ∈ v ∧ i < segs.length) ∧
      (∀ i, (i ∈ (walkLoop conns segs fuel v c cur).1 ∧ i < segs.length) ↔
        ((i ∈ v ∧ i < segs.length) ∨ i ∈ d.map (·.segmentIndex))) := by
  intro fuel
  induction fuel with
  | zero =>
    intro v c cur
    refine ⟨[], by simp [walkLoop], by simp, by simp, ?_⟩
    intro i
    simp [walkLoop]
  | succ fuel ih =>
    intro v c cur
    by_cases hv : cur.idx ∈ v
    · refine ⟨[], by simp [walkLoop, hv], by simp, by simp, ?_⟩
      intro i
      simp [walkLoop, hv]
    · cases hseg : segs[cur.idx]? with
      | none =>
        have hge : segs.length ≤ cur.idx := by
          by_contra hlt
          rw [List.getElem?_eq_getElem (by omega)] at hseg
          exact Option.noConfusion hseg
        refine ⟨[], by simp [walkLoop, hv, hseg], by simp, by simp, ?_⟩
        intro i
        simp only [walkLoop, if_neg hv, hseg, List.mem_cons, List.not_mem_nil, or_false]
        constructor
        · rintro ⟨(rfl | hi), hlt⟩
          · omega
          · exact Or.inl ⟨hi, hlt⟩
        · rintro (⟨hi, hlt⟩ | h)
          · exact ⟨Or.inr hi, hlt⟩
          · exact absurd h (List.not_mem_nil i)
      | some seg =>
        have hlt : cur.idx < segs.length := by
          by_contra hge
          rw [List.getElem?_eq_none (by omega)] at hseg
          exact Option.noConfusion hseg
        cases hconn : conns ⟨if cur.side = Side.L then Side.R else Side.L, cur.idx⟩ with
        | none =>
          refine ⟨[⟨seg.chr, seg.start, seg.stop,
              if cur.side = Side.L then Orient.forward else Orient.reverse, cur.idx⟩],
            by simp [walkLoop, hv, hseg, hconn], by simp, ?_, ?_⟩
          · intro i hi
            simp only [List.map_cons, List.map_nil, List.mem_singleton] at hi
            subst hi
            exact ⟨hv, hlt⟩
          · intro i
            simp only [walkLoop, if_neg hv, hseg, hconn, List.map_cons, List.map_nil,
              List.mem_cons, List.not_mem_nil, or_false]
            constructor
            · rintro ⟨(rfl | hi), hl⟩
              · exact Or.inr rfl
              · exact Or.inl ⟨hi, hl⟩
            · rintro (⟨hi, hl⟩ | rfl)
              · exact ⟨Or.inr hi, hl⟩
              · exact ⟨Or.inl rfl, hlt⟩
        | some nxt =>
          rcases ih (cur.idx :: v)
              (c ++ [⟨seg.chr, seg.start, seg.stop,
                if cur.side = Side.L then Orient.forward else Orient.reverse, cur.idx⟩]) nxt
            with ⟨d', hd'app, hd'nodup, hd'cond, hd'iff⟩
          have hres2 : (walkLoop conns segs (fuel + 1) v c cur).2 =
              (walkLoop conns segs fuel (cur.idx :: v)
                (c ++ [⟨seg.chr, seg.start, seg.stop,
                  if cur.side = Side.L then Orient.forward else Orient.reverse, cur.idx⟩]) nxt).2 := by
            simp [walkLoop, hv, hseg, hconn]
          have hres1 : (walkLoop conns segs (fuel + 1) v c cur).1 =
              (walkLoop conns segs fuel (cur.idx :: v)
                (c ++ [⟨seg.chr, seg.start, seg.stop,
                  if cur.side = Side.L then Orient.forward else Orient.reverse, cur.idx⟩]) nxt).1 := by
            simp [walkLoop, hv, hseg, hconn]
          refine ⟨⟨seg.chr, seg.start, seg.stop,
              if cur.side = Side.L then Orient.forward else Orient.reverse, cur.idx⟩ :: d',
            ?_, ?_, ?_, ?_⟩
          · rw [hres2, hd'app]
            simp
          · simp only [List.map_cons, List.nodup_cons]
            refine ⟨?_, hd'nodup⟩
            intro hmem
            exact (hd'cond _ hmem).1 (List.mem_cons_self _ _)
          · intro i hi
            simp only [List.map_cons, List.mem_cons] at hi
            rcases hi with rfl | hi
            · exact ⟨hv, hlt⟩
            · have := hd'cond i hi
              exact ⟨fun hx => this.1 (List.mem_cons_of_mem _ hx), this.2⟩
          · intro i
            rw [hres1]
            rw [hd'iff i]
            simp only [List.mem_cons, List.map_cons]
            constructor
            · rintro (⟨(rfl | hi), hl⟩ | h)
              · exact Or.inr (Or.inl rfl)
              · exact Or.inl ⟨hi, hl⟩
              · exact Or.inr (Or.inr h)
            · rintro (⟨hi, hl⟩ | (rfl | h))
              · exact Or.inl ⟨Or.inr hi, hl⟩
              · exact Or.inl ⟨Or.inl rfl, hlt⟩
              · exact Or.inr h

/-- The outer free-port loop maintains: the chain-segment indices are
pairwise distinct and coincide with the in-range part of the visited
set. -/
theorem walkAll_spec (conns : ConnMap) (segs : List RefSegment) :
    ∀ (ports : List Port) (v : List Nat) (cs : List (List WalkSegment)),
    ((cs.flatten.map (·.segmentIndex)).Nodup ∧
      (∀ i, i ∈ cs.flatten.map (·.segmentIndex) ↔ (i ∈ v ∧ i < segs.length))) →
    (((walkAll conns segs ports v cs).2.flatten.map (·.segmentIndex)).Nodup ∧
      (∀ i, i ∈ (walkAll conns segs ports v cs).2.flatten.map (·.segmentIndex) ↔
        (i ∈ (walkAll conns segs ports v cs).1 ∧ i < segs.length))) := by
  intro ports
  induction ports with
  | nil =>
    intro v cs h
    simpa [walkAll] using h
  | cons p rest ih =>
    intro v cs h
    by_cases hv : p.idx ∈ v
    · have : walkAll conns segs (p :: rest) v cs = walkAll conns segs rest v cs := by
        simp [walkAll, hv]
      rw [this]
      exact ih v cs h
    · rcases walkLoop_spec conns segs (segs.length + 1) v [] p
        with ⟨d, hdapp, hdnodup, hdcond, hdiff⟩
      simp only [List.nil_append] at hdapp
      by_cases hemp : (walkLoop conns segs (segs.length + 1) v [] p).2.isEmpty
      · have hd0 : d = [] := by
          rw [hdapp] at hemp
          exact List.isEmpty_iff.mp hemp
        have hstep : walkAll conns segs (p :: rest) v cs =
            walkAll conns segs rest (walkLoop conns segs (segs.length + 1) v [] p).1 cs := by
          simp [walkAll, hv, hemp]
        rw [hstep]
        refine ih _ cs ⟨h.1, ?_⟩
        intro i
        rw [h.2 i, hdiff i, hd0]
        simp
      · have hstep : walkAll conns segs (p :: rest) v cs =
            walkAll conns segs rest (walkLoop conns segs (segs.length + 1) v [] p).1
              (cs ++ [(walkLoop conns segs (segs.length + 1) v [] p).2]) := by
          simp [walkAll, hv, hemp]
        rw [hstep]
        refine ih _ _ ⟨?_, ?_⟩
        · rw [hdapp]
          simp only [List.flatten_append, List.flatten_cons, List.flatten_nil,
            List.append_nil, List.map_append]
          rw [List.nodup_append]
          refine ⟨h.1, hdnodup, ?_⟩
          intro i hi hid
          exact (hdcond i hid).1 ((h.2 i).mp hi).1
        · intro i
          rw [hdapp]
          simp only [List.flatten_append, List.flatten_cons, List.flatten_nil,
            List.append_nil, List.map_append, List.mem_append]
          rw [h.2 i, hdiff i]

theorem mkSegs_map_index (c : String) :
    ∀ (bounds : List Nat) (k : Nat),
      (mkSegs c bounds k).map (·.index) = List.range' k (mkSegs c bounds k).length := by
  intro bounds
  induction bounds with
  | nil => intro k; rfl
  | cons b1 rest ih =>
    intro k
    cases rest with
    | nil => rfl
    | cons b2 rest' =>
      show k :: (mkSegs c (b2 :: rest') (k + 1)).map (·.index) =
        List.range' k ((mkSegs c (b2 :: rest') (k + 1)).length + 1)
      rw [ih (k + 1), List.range'_succ]

theorem buildChrSegmentsGo_map_index (posOf : String → List Nat) :
    ∀ (names : List String) (k : Nat),
      ((buildChrSegmentsGo posOf names k).flatMap (·.2)).map (·.index) =
        List.range' k ((buildChrSegmentsGo posOf names k).flatMap (·.2)).length := by
  intro names
  induction names with
  | nil => intro k; rfl
  | cons c rest ih =>
    intro k
    show ((mkSegs c (boundariesFor (posOf c)) k ++
        (buildChrSegmentsGo posOf rest (k + (mkSegs c (boundariesFor (posOf c)) k).length)).flatMap
          (·.2))).map (·.index) =
      List.range' k ((mkSegs c (boundariesFor (posOf c)) k ++
        (buildChrSegmentsGo posOf rest (k + (mkSegs c (boundariesFor (posOf c)) k).length)).flatMap
          (·.2))).length
    rw [List.map_append, mkSegs_map_index, ih]
    rw [List.length_append]
    have := List.range'_append k (mkSegs c (boundariesFor (posOf c)) k).length
      ((buildChrSegmentsGo posOf rest
        (k + (mkSegs c (boundariesFor (posOf c)) k).length)).flatMap (·.2)).length 1
    simp only [one_mul, mul_one] at this
    rw [this, Nat.add_comm]

theorem refSegments_map_index (bs : List Breakend) :
    ((buildChrSegments bs).flatMap (·.2)).map (·.index) =
      List.range ((buildChrSegments bs).flatMap (·.2)).length := by
  rw [List.range_eq_range']
  exact buildChrSegmentsGo_map_index (chrPositionsList bs) (sortedChrNames bs) 0

/-- Core of C3, stated over the walker's pieces: the chains' indices
are distinct, the orphans are distinct, the two sets partition the
segment indices, and the counts add up. -/
theorem walkAll_partition (conns : ConnMap) (segs : List RefSegment) (ports : List Port)
    (hidx : segs.map (·.index) = List.range segs.length) :
    ((walkAll conns segs ports [] []).2.flatten.map (·.segmentIndex)).Nodup ∧
    ((segs.filter (fun s => ¬ s.index ∈ (walkAll conns segs ports [] []).1)).map
      (fun s : RefSegment => s.index)).Nodup ∧
    (∀ i, (i ∈ (walkAll conns segs ports [] []).2.flatten.map (·.segmentIndex) ∨
           i ∈ (segs.filter (fun s => ¬ s.index ∈ (walkAll conns segs ports [] []).1)).map
             (fun s : RefSegment => s.index)) ↔
      i ∈ segs.map (fun s : RefSegment => s.index)) ∧
    (∀ i, ¬(i ∈ (walkAll conns segs ports [] []).2.flatten.map (·.segmentIndex) ∧
            i ∈ (segs.filter (fun s => ¬ s.index ∈ (walkAll conns segs ports [] []).1)).map
              (fun s : RefSegment => s.index))) ∧
    ((walkAll conns segs ports [] []).2.flatten.map (·.segmentIndex)).length +
      ((segs.filter (fun s => ¬ s.index ∈ (walkAll conns segs ports [] []).1)).map
        (fun s : RefSegment => s.index)).length = segs.length := by
  have hspec := walkAll_spec conns segs ports [] [] ⟨by simp, by simp⟩
  have hN : (List.range segs.length).length = segs.length := List.length_range _
  obtain ⟨hnodup, hiff⟩ := hspec
  have horph : ∀ v : List Nat,
      (segs.filter (fun s => ¬ s.index ∈ v)).map (fun s : RefSegment => s.index) =
        (List.range segs.length).filter (fun i => ¬ i ∈ v) := by
    intro v
    rw [← hidx]
    exact (@List.map_filter RefSegment Nat (fun i => decide (¬ i ∈ v))
      (fun s : RefSegment => s.index) segs).symm
  rw [horph]
  have horphnodup := (List.nodup_range segs.length).filter (fun i => decide (¬ i ∈ (walkAll conns segs ports [] []).1))
  have hdisj : ∀ i, ¬(i ∈ (walkAll conns segs ports [] []).2.flatten.map (·.segmentIndex) ∧
      i ∈ (List.range segs.length).filter (fun i => ¬ i ∈ (walkAll conns segs ports [] []).1)) := by
    intro i hcontra
    obtain ⟨h1, h2⟩ := hcontra
    rw [hiff i] at h1
    rw [List.mem_filter] at h2
    have h2' : ¬ i ∈ (walkAll conns segs ports [] []).1 := by simpa using h2.2
    exact h2' h1.1
  have hcover : ∀ i, (i ∈ (walkAll conns segs ports [] []).2.flatten.map (·.segmentIndex) ∨
      i ∈ (List.range segs.length).filter (fun i => ¬ i ∈ (walkAll conns segs ports [] []).1)) ↔
      i < segs.length := by
    intro i
    rw [List.mem_filter, List.mem_range, hiff i]
    constructor
    · rintro (⟨_, hl⟩ | ⟨hl, _⟩)
      · exact hl
      · exact hl
    · intro hl
      by_cases hv : i ∈ (walkAll conns segs ports [] []).1
      · exact Or.inl ⟨hv, hl⟩
      · exact Or.inr ⟨hl, by simpa using hv⟩
  refine ⟨hnodup, horphnodup, ?_, hdisj, ?_⟩
  · intro i
    rw [hidx, List.mem_range]
    exact hcover i
  · have hperm : ((walkAll conns segs ports [] []).2.flatten.map (·.segmentIndex) ++
        (List.range segs.length).filter (fun i => ¬ i ∈ (walkAll conns segs ports [] []).1)).Perm
        (List.range segs.length) := by
      rw [List.perm_ext_iff_of_nodup ?_ (List.nodup_range segs.length)]
      · intro i
        rw [List.mem_append, List.mem_range]
        exact hcover i
      · rw [List.nodup_append]
        exact ⟨hnodup, horphnodup, fun i hi hi2 => hdisj i ⟨hi, hi2⟩⟩
    have hlen := hperm.length_eq
    rw [List.length_append, hN] at hlen
    exact hlen

/-- C3: the walker's output partitions the ref segment indices — every
index lies in exactly one chain exactly once, or exactly once in
`orphan_indices`, never both, and the counts add up to the number of
ref segments. -/
theorem walkBreakends_partition (bs : List Breakend) :
    ((walkBreakends bs).chains.flatten.map (·.segmentIndex)).Nodup ∧
    (walkBreakends bs).orphanIndices.Nodup ∧
    (∀ i, (i ∈ (walkBreakends bs).chains.flatten.map (·.segmentIndex) ∨
           i ∈ (walkBreakends bs).orphanIndices) ↔
      i ∈ (walkBreakends bs).refSegments.map (·.index)) ∧
    (∀ i, ¬(i ∈ (walkBreakends bs).chains.flatten.map (·.segmentIndex) ∧
            i ∈ (walkBreakends bs).orphanIndices)) ∧
    ((walkBreakends bs).chains.flatten.map (·.segmentIndex)).length +
      (walkBreakends bs).orphanIndices.length = (walkBreakends bs).refSegments.length := by
  have hchains : (walkBreakends bs).chains =
      (walkAll (wireAll bs (buildChrSegments bs)) ((buildChrSegments bs).flatMap (·.2))
        (List.insertionSort portLe
          (freePorts ((buildChrSegments bs).flatMap (·.2))
            (wireAll bs (buildChrSegments bs)))) [] []).2 := rfl
  have horph : (walkBreakends bs).orphanIndices =
      (((buildChrSegments bs).flatMap (·.2)).filter
        (fun s => ¬ s.index ∈ (walkAll (wireAll bs (buildChrSegments bs))
          ((buildChrSegments bs).flatMap (·.2))
          (List.insertionSort portLe
            (freePorts ((buildChrSegments bs).flatMap (·.2))
              (wireAll bs (buildChrSegments bs)))) [] []).1)).map
        (fun s : RefSegment => s.index) := rfl
  have hrefs : (walkBreakends bs).refSegments = (buildChrSegments bs).flatMap (·.2) := rfl
  rw [hchains, horph, hrefs]
  exact walkAll_partition (wireAll bs (buildChrSegments bs))
    ((buildChrSegments bs).flatMap (·.2))
    (List.insertionSort portLe
      (freePorts ((buildChrSegments bs).flatMap (·.2)) (wireAll bs (buildChrSegments bs))))
    (refSegments_map_index bs)

/-! ## C7: TI edges of the graph builder -/

theorem mem_allPairs_elems {α : Type} :
    ∀ (l : List α) (a b : α), (a, b) ∈ allPairs l → a ∈ l ∧ b ∈ l := by
  intro l
  induction l with
  | nil => intro a b h; simp [allPairs] at h
  | cons x xs ih =>
    intro a b h
    rw [allPairs, List.mem_append] at h
    rcases h with h | h
    · rcases List.mem_map.mp h with ⟨y, hy, heq⟩
      injection heq with h1 h2
      subst h1
      subst h2
      exact ⟨List.mem_cons_self _ _, List.mem_cons_of_mem _ hy⟩
    · exact ⟨List.mem_cons_of_mem _ (ih a b h).1, List.mem_cons_of_mem _ (ih a b h).2⟩

theorem rel_of_mem_allPairs {α : Type} (r : α → α → Prop) :
    ∀ (l : List α), List.Sorted r l → ∀ a b, (a, b) ∈ allPairs l → r a b := by
  intro l
  induction l with
  | nil => intro _ a b h; simp [allPairs] at h
  | cons x xs ih =>
    intro hs a b h
    rw [allPairs, List.mem_append] at h
    rcases List.sorted_cons.mp hs with ⟨hx, hxs⟩
    rcases h with h | h
    · rcases List.mem_map.mp h with ⟨y, hy, heq⟩
      injection heq with h1 h2
      subst h1
      subst h2
      exact hx y hy
    · exact ih hxs a b h

theorem mem_allPairs_of_sorted_lt :
    ∀ (l : List Breakend), List.Sorted (fun x y : Breakend => x.pos ≤ y.pos) l →
    ∀ a b : Breakend, a ∈ l → b ∈ l → a.pos < b.pos → (a, b) ∈ allPairs l := by
  intro l
  induction l with
  | nil => intro _ a b ha _ _; simp at ha
  | cons x xs ih =>
    intro hs a b ha hb hab
    rcases List.sorted_cons.mp hs with ⟨hx, hxs⟩
    rcases List.mem_cons.mp ha with rfl | ha'
    · rcases List.mem_cons.mp hb with rfl | hb'
      · omega
      · rw [allPairs, List.mem_append]
        exact Or.inl (List.mem_map_of_mem _ hb')
    · rcases List.mem_cons.mp hb with rfl | hb'
      · exact absurd (hx a ha') (by omega)
      · rw [allPairs, List.mem_append]
        exact Or.inr (ih hxs a b ha' hb' hab)

theorem mem_classifyPairs_ti :
    ∀ (ps : List (Breakend × Breakend)) (L : Link),
      L ∈ (classifyPairs ps).1 ↔
        ∃ a b, (a, b) ∈ ps ∧ ¬ areMates a b ∧ isFacingPair a b ∧ L = ⟨LinkKind.TI, a, b⟩ := by
  intro ps
  induction ps with
  | nil =>
    intro L
    simp [classifyPairs]
  | cons p rest ih =>
    intro L
    obtain ⟨a, b⟩ := p
    rw [classifyPairs]
    by_cases hm : areMates a b
    · rw [if_pos hm, ih L]
      constructor
      · rintro ⟨x, y, hxy, hnm, hf, rfl⟩
        exact ⟨x, y, List.mem_cons_of_mem _ hxy, hnm, hf, rfl⟩
      · rintro ⟨x, y, hxy, hnm, hf, rfl⟩
        rcases List.mem_cons.mp hxy with heq | hxy'
        · injection heq with h1 h2
          subst h1
          subst h2
          exact absurd hm hnm
        · exact ⟨x, y, hxy', hnm, hf, rfl⟩
    · rw [if_neg hm]
      by_cases hf : isFacingPair a b
      · rw [if_pos hf]
        constructor
        · intro hL
          rcases List.mem_cons.mp hL with rfl | hL'
          · exact ⟨a, b, List.mem_cons_self _ _, hm, hf, rfl⟩
          · rcases (ih L).mp hL' with ⟨x, y, hxy, hnm, hfx, rfl⟩
            exact ⟨x, y, List.mem_cons_of_mem _ hxy, hnm, hfx, rfl⟩
        · rintro ⟨x, y, hxy, hnm, hfx, rfl⟩
          rcases List.mem_cons.mp hxy with heq | hxy'
          · injection heq with h1 h2
            subst h1
            subst h2
            exact List.mem_cons_self _ _
          · exact List.mem_cons_of_mem _ ((ih _).mpr ⟨x, y, hxy', hnm, hfx, rfl⟩)
      · rw [if_neg hf]
        have htail : (if isDeletionBridge a b then
            ((classifyPairs rest).1, (⟨LinkKind.DB, a, b⟩ : Link) :: (classifyPairs rest).2)
            else classifyPairs rest).1 = (classifyPairs rest).1 := by
          by_cases hd : isDeletionBridge a b
          · rw [if_pos hd]
          · rw [if_neg hd]
        rw [htail, ih L]
        constructor
        · rintro ⟨x, y, hxy, hnm, hfx, rfl⟩
          exact ⟨x, y, List.mem_cons_of_mem _ hxy, hnm, hfx, rfl⟩
        · rintro ⟨x, y, hxy, hnm, hfx, rfl⟩
          rcases List.mem_cons.mp hxy with heq | hxy'
          · injection heq with h1 h2
            subst h1
            subst h2
            exact absurd hfx hf
          · exact ⟨x, y, hxy', hnm, hfx, rfl⟩

/-- TI links of the per-chromosome pass. -/
def tiOfChr (bs : List Breakend) (c : String) : List Link :=
  (classifyPairs (allPairs (posSorted (bs.filter (fun b => b.chr = c))))).1

theorem mem_buildTi_fold (bs : List Breakend) :
    ∀ (names : List String) (acc : List Link × List Link) (L : Link),
      (L ∈ (names.foldl
        (fun acc c =>
          let sorted := posSorted (bs.filter (fun b => b.chr = c))
          let r := classifyPairs (allPairs sorted)
          (acc.1 ++ r.1, acc.2 ++ r.2))
        acc).1) ↔ L ∈ acc.1 ∨ ∃ c ∈ names, L ∈ tiOfChr bs c := by
  intro names
  induction names with
  | nil =>
    intro acc L
    simp
  | cons c0 rest ih =>
    intro acc L
    rw [List.foldl_cons, ih]
    simp only [List.mem_append, List.mem_cons]
    constructor
    · rintro ((h | h) | ⟨c, hc, hL⟩)
      · exact Or.inl h
      · exact Or.inr ⟨c0, Or.inl rfl, h⟩
      · exact Or.inr ⟨c, Or.inr hc, hL⟩
    · rintro (h | ⟨c, (rfl | hc), hL⟩)
      · exact Or.inl (Or.inl h)
      · exact Or.inl (Or.inr hL)
      · exact Or.inr ⟨c, hc, hL⟩

theorem mem_tiLinks (bs : List Breakend) (L : Link) :
    L ∈ (buildTiAndDbLinks bs).1 ↔ ∃ c ∈ firstDedup (bs.map (·.chr)), L ∈ tiOfChr bs c := by
  unfold buildTiAndDbLinks
  rw [mem_buildTi_fold bs (firstDedup (bs.map (·.chr))) ([], []) L]
  simp

/-- C7 (amended): for breakends at distinct positions, the TI edge list
contains an edge joining `a` and `b` exactly when both are in the
input, share a chromosome, are not mate-linked in either direction, and
face inward (the lower LEFT, the upper RIGHT).  (For pairs at equal
positions the emitted kind depends on the stable sort order, see the
counterexample.) -/
theorem tiLinks_mem_iff (bs : List Breakend) (a b : Breakend) (hab : a.pos < b.pos) :
    (∃ L ∈ (buildTiAndDbLinks bs).1,
        (L.breakend1 = a ∧ L.breakend2 = b) ∨ (L.breakend1 = b ∧ L.breakend2 = a)) ↔
      (a ∈ bs ∧ b ∈ bs ∧ a.chr = b.chr ∧ ¬ areMates a b ∧
        a.orientation = -1 ∧ b.orientation = 1) := by
  have hsorted : ∀ c, List.Sorted (fun x y : Breakend => x.pos ≤ y.pos)
      (posSorted (bs.filter (fun b => b.chr = c))) := by
    intro c
    unfold posSorted
    exact @List.sorted_insertionSort Breakend (fun x y => x.pos ≤ y.pos)
      (fun x y => Nat.decLe x.pos y.pos)
      ⟨fun x y => Nat.le_total x.pos y.pos⟩
      ⟨fun x y z hxy hyz => Nat.le_trans hxy hyz⟩ _
  constructor
  · rintro ⟨L, hL, hends⟩
    rcases (mem_tiLinks bs L).mp hL with ⟨c, _, hLc⟩
    rcases (mem_classifyPairs_ti _ L).mp hLc with ⟨x, y, hxy, hnm, hf, rfl⟩
    have hxy_mem := mem_allPairs_elems _ x y hxy
    have hx_bs := List.mem_filter.mp ((List.perm_insertionSort _ _).mem_iff.mp hxy_mem.1)
    have hy_bs := List.mem_filter.mp ((List.perm_insertionSort _ _).mem_iff.mp hxy_mem.2)
    have hle : x.pos ≤ y.pos :=
      rel_of_mem_allPairs (fun u v : Breakend => u.pos ≤ v.pos) _ (hsorted c) x y hxy
    rcases hends with ⟨hx, hy⟩ | ⟨hx, hy⟩
    · simp only at hx hy
      subst hx
      subst hy
      unfold isFacingPair at hf
      rw [if_pos hle] at hf
      exact ⟨hx_bs.1, hy_bs.1, hf.1, hnm, hf.2⟩
    · simp only at hx hy
      subst hx
      subst hy
      omega
  · rintro ⟨ha, hb, hchr, hnm, hoa, hob⟩
    refine ⟨⟨LinkKind.TI, a, b⟩, ?_, Or.inl ⟨rfl, rfl⟩⟩
    rw [mem_tiLinks bs]
    refine ⟨a.chr, ?_, ?_⟩
    · rw [mem_firstDedup]
      exact List.mem_map_of_mem _ ha
    · unfold tiOfChr
      rw [mem_classifyPairs_ti]
      refine ⟨a, b, ?_, hnm, ⟨hchr, ?_⟩, rfl⟩
      · apply mem_allPairs_of_sorted_lt _ (hsorted a.chr) a b ?_ ?_ hab
        · show a ∈ List.insertionSort (fun x y : Breakend => x.pos ≤ y.pos)
            (bs.filter (fun x => x.chr = a.chr))
          rw [(List.perm_insertionSort _ _).mem_iff]
          exact List.mem_filter.mpr ⟨ha, by simp⟩
        · show b ∈ List.insertionSort (fun x y : Breakend => x.pos ≤ y.pos)
            (bs.filter (fun x => x.chr = a.chr))
          rw [(List.perm_insertionSort _ _).mem_iff]
          exact List.mem_filter.mpr ⟨hb, by simp [hchr]⟩
      · rw [if_pos (le_of_lt hab)]
        exact ⟨hoa, hob⟩

/-- C7 amended-theorem witness: a concrete facing pair at distinct
positions for which the characterization is decided. -/
theorem tiLinks_mem_iff_witness :
    nA.pos < nB.pos ∧
    ((∃ L ∈ (buildTiAndDbLinks [nA, nB]).1,
        (L.breakend1 = nA ∧ L.breakend2 = nB) ∨ (L.breakend1 = nB ∧ L.breakend2 = nA)) ↔
      (nA ∈ [nA, nB] ∧ nB ∈ [nA, nB] ∧ nA.chr = nB.chr ∧ ¬ areMates nA nB ∧
        nA.orientation = -1 ∧ nB.orientation = 1)) :=
  ⟨by decide, tiLinks_mem_iff [nA, nB] nA nB (by decide)⟩

/-- C7 (counterexample): a facing pair at the same position.  The
RIGHT-facing breakend precedes the LEFT-facing one in input (and hence
stable-sorted) order, so the builder emits no TI edge for the pair even
though it satisfies the claim's side conditions. -/
theorem C7_tie_counterexample :
    (buildTiAndDbLinks [tieR, tieL]).1 = [] ∧
    tieL.pos ≤ tieR.pos ∧ tieL.chr = tieR.chr ∧ ¬ areMates tieL tieR ∧
    tieL.orientation = -1 ∧ tieR.orientation = 1 := by
  decide

/-! ## Termination of the chaining loop (C10) -/

theorem foldl_preserve {α β : Type} (f : β → α → β) (P : β → Prop)
    (l : List α) (init : β) (h0 : P init)
    (hstep : ∀ b a, a ∈ l → P b → P (f b a)) : P (l.foldl f init) := by
  induction l generalizing init with
  | nil => exact h0
  | cons x xs ih =>
    exact ih (f init x) (hstep init x (List.mem_cons_self x xs) h0)
      (fun b a ha hb => hstep b a (List.mem_cons_of_mem x ha) hb)

theorem endMatches_eq_true {e : Option Breakend} {bid : String}
    (h : endMatches e bid = true) : ∃ b, e = some b ∧ b.id = bid := by
  cases e with
  | none => simp [endMatches] at h
  | some b =>
    refine ⟨b, rfl, ?_⟩
    simpa [endMatches] using h

/-- Soundness predicate for the chain-end scan: a returned index points
at a chain whose designated open end really carries the sought id. -/
def FindEndOk (chains : List WorkChain) (bid : String) : Option (Nat × Bool) → Prop
  | none => True
  | some f => ∃ c, chains[f.1]? = some c ∧
      (f.2 = true → ∃ b, c.startBreakend = some b ∧ b.id = bid) ∧
      (f.2 = false → ∃ b, c.endBreakend = some b ∧ b.id = bid)

theorem findEnd_ok (chains : List WorkChain) (bid : String) :
    FindEndOk chains bid (findEnd chains bid) := by
  unfold findEnd
  apply foldl_preserve _ (FindEndOk chains bid) chains.enum none trivial
  intro acc p hp hacc
  obtain ⟨i, c⟩ := p
  have hget : chains[i]? = some c := List.mk_mem_enum_iff_getElem?.mp hp
  by_cases h1 : endMatches c.startBreakend bid = true
  · rw [if_pos h1]
    rcases endMatches_eq_true h1 with ⟨b, hb, hid⟩
    exact ⟨c, hget, fun _ => ⟨b, hb, hid⟩, fun hf => Bool.noConfusion hf⟩
  · rw [if_neg h1]
    by_cases h2 : endMatches c.endBreakend bid = true
    · rw [if_pos h2]
      rcases endMatches_eq_true h2 with ⟨b, hb, hid⟩
      exact ⟨c, hget, fun hf => Bool.noConfusion hf, fun _ => ⟨b, hb, hid⟩⟩
    · rw [if_neg h2]
      exact hacc

theorem sum_map_set {α : Type} (f : α → Nat) :
    ∀ (l : List α) (i : Nat) (x y : α), l[i]? = some y →
      ((l.set i x).map f).sum + f y = (l.map f).sum + f x := by
  intro l
  induction l with
  | nil => intro i x y hg; simp at hg
  | cons a t ih =>
    intro i x y hg
    cases i with
    | zero =>
      simp only [List.getElem?_cons_zero, Option.some.injEq] at hg
      subst hg
      simp only [List.set_cons_zero, List.map_cons, List.sum_cons]
      omega
    | succ n =>
      have hrec := ih n x y (by simpa using hg)
      simp only [List.set_cons_succ, List.map_cons, List.sum_cons]
      omega

theorem endUsedWeight_le (u : List String) (e : Option Breakend) : endUsedWeight u e ≤ 1 := by
  cases e with
  | none => exact Nat.zero_le 1
  | some b =>
    by_cases hb : b.id ∈ u
    · simp [endUsedWeight, hb]
    · simp [endUsedWeight, hb]

theorem sum_chainEndWeight_le (u : List String) :
    ∀ l : List WorkChain, (l.map (chainEndWeight u)).sum ≤ 2 * l.length := by
  intro l
  induction l with
  | nil => simp
  | cons c t ih =>
    simp only [List.map_cons, List.sum_cons, List.length_cons]
    have h1 := endUsedWeight_le u c.startBreakend
    have h2 := endUsedWeight_le u c.endBreakend
    have hc : chainEndWeight u c ≤ 2 := by unfold chainEndWeight; omega
    omega

theorem length_filter_mono {α : Type} (p q : α → Bool)
    (h : ∀ a, p a = true → q a = true) :
    ∀ l : List α, (l.filter p).length ≤ (l.filter q).length := by
  intro l
  induction l with
  | nil => exact Nat.le_refl 0
  | cons a t ih =>
    simp only [List.filter_cons]
    by_cases hp : p a = true
    · rw [if_pos hp, if_pos (h a hp)]
      simp only [List.length_cons]
      omega
    · rw [if_neg hp]
      by_cases hq : q a = true
      · rw [if_pos hq]
        simp only [List.length_cons]
        omega
      · rw [if_neg hq]
        exact ih

theorem length_filter_notmem_cons_lt (x : String) (u : List String) (hxu : ¬ x ∈ u) :
    ∀ l : List String, x ∈ l →
      (l.filter (fun i => ¬ i ∈ (x :: u))).length < (l.filter (fun i => ¬ i ∈ u)).length := by
  intro l
  induction l with
  | nil => intro hmem; cases hmem
  | cons y t ih =>
    intro hmem
    simp only [List.filter_cons]
    by_cases hyx : y = x
    · subst hyx
      rw [if_neg (by simp [List.mem_cons]), if_pos (by simpa using hxu)]
      have hmono := length_filter_mono
        (fun i => decide (¬ i ∈ (y :: u))) (fun i => decide (¬ i ∈ u))
        (fun a ha => by
          simp only [decide_eq_true_eq, List.mem_cons] at ha ⊢
          exact fun hm => ha (Or.inr hm)) t
      simp only [List.length_cons]
      omega
    · have hxt : x ∈ t := by
        rcases List.mem_cons.mp hmem with h | h
        · exact absurd h.symm hyx
        · exact h
      by_cases hyu : y ∈ u
      · rw [if_neg (by simp [List.mem_cons, hyu]), if_neg (by simp [hyu])]
        exact ih hxt
      · rw [if_pos (by simp [List.mem_cons, hyx, hyu]), if_pos (by simpa using hyu)]
        simp only [List.length_cons]
        have := ih hxt
        omega

theorem unusedCount_insert_le (ti : List Link) (u : List String) (x : String) :
    unusedCount ti (insertUsed u x) ≤ unusedCount ti u := by
  unfold insertUsed
  by_cases hx : x ∈ u
  · rw [if_pos hx]
  · rw [if_neg hx]
    unfold unusedCount
    apply length_filter_mono
    intro a ha
    simp only [decide_eq_true_eq, List.mem_cons] at ha ⊢
    exact fun hm => ha (Or.inr hm)

theorem unusedCount_insert_lt (ti : List Link) (u : List String) (x : String)
    (hx : x ∈ tiIds ti) (hxu : ¬ x ∈ u) :
    unusedCount ti (insertUsed u x) < unusedCount ti u := by
  unfold insertUsed unusedCount
  rw [if_neg hxu]
  exact length_filter_notmem_cons_lt x u hxu (tiIds ti) hx

theorem breakend1_mem_tiIds (ti : List Link) (l : Link) (hl : l ∈ ti) :
    l.breakend1.id ∈ tiIds ti := by
  unfold tiIds
  rw [mem_firstDedup]
  exact List.mem_flatMap.mpr ⟨l, hl, List.mem_cons_self _ _⟩

theorem breakend2_mem_tiIds (ti : List Link) (l : Link) (hl : l ∈ ti) :
    l.breakend2.id ∈ tiIds ti := by
  unfold tiIds
  rw [mem_firstDedup]
  exact List.mem_flatMap.mpr ⟨l, hl, by simp⟩

theorem measure_arith (C C' U U' E' : Nat) (hC : C' ≤ C) (hU : U' < U) (hE : E' ≤ 2 * C') :
    (2 * C' + 1) * U' + E' < (2 * C + 1) * U := by
  have h1 : (2 * C' + 1) * U' + E' < (2 * C' + 1) * U' + (2 * C' + 1) :=
    Nat.add_lt_add_left (by omega) _
  have h2 : (2 * C' + 1) * U' + (2 * C' + 1) = (2 * C' + 1) * (U' + 1) :=
    (Nat.mul_succ _ _).symm
  have h3 : (2 * C' + 1) * (U' + 1) ≤ (2 * C' + 1) * U := Nat.mul_le_mul_left _ hU
  have h4 : (2 * C' + 1) * U ≤ (2 * C + 1) * U := Nat.mul_le_mul_right _ (by omega)
  calc (2 * C' + 1) * U' + E' < (2 * C' + 1) * U' + (2 * C' + 1) := h1
    _ = (2 * C' + 1) * (U' + 1) := h2
    _ ≤ (2 * C' + 1) * U := h3
    _ ≤ (2 * C + 1) * U := h4

/-- Extending one chain while absorbing a fresh endpoint id shrinks the
measure. -/
theorem measure_lt_of_extend (ti : List Link) (st : ChainState) (i : Nat)
    (ext : WorkChain) (u2 : List String)
    (hU : unusedCount ti u2 < unusedCount ti st.used) :
    chainMeasure ti ⟨st.chains.set i ext, u2⟩ < chainMeasure ti st := by
  have hE := sum_chainEndWeight_le u2 (st.chains.set i ext)
  rw [List.length_set] at hE
  show (2 * (st.chains.set i ext).length + 1) * unusedCount ti u2 +
      ((st.chains.set i ext).map (chainEndWeight u2)).sum <
    (2 * st.chains.length + 1) * unusedCount ti st.used +
      (st.chains.map (chainEndWeight st.used)).sum
  rw [List.length_set]
  exact Nat.lt_of_lt_of_le
    (measure_arith st.chains.length st.chains.length (unusedCount ti st.used)
      (unusedCount ti u2) _ (Nat.le_refl _) hU hE)
    (Nat.le_add_right _ _)

/-- Merging two chains (one chain disappears and at least one fresh
endpoint id is absorbed) shrinks the measure. -/
theorem measure_lt_of_merge (ti : List Link) (st : ChainState) (i j : Nat)
    (ext : WorkChain) (u2 : List String)
    (hj : j < st.chains.length)
    (hU : unusedCount ti u2 < unusedCount ti st.used) :
    chainMeasure ti ⟨(st.chains.set i ext).eraseIdx j, u2⟩ < chainMeasure ti st := by
  have hlen : ((st.chains.set i ext).eraseIdx j).length = st.chains.length - 1 := by
    rw [List.length_eraseIdx_of_lt (by rw [List.length_set]; exact hj), List.length_set]
  have hE := sum_chainEndWeight_le u2 ((st.chains.set i ext).eraseIdx j)
  rw [hlen] at hE
  show (2 * ((st.chains.set i ext).eraseIdx j).length + 1) * unusedCount ti u2 +
      (((st.chains.set i ext).eraseIdx j).map (chainEndWeight u2)).sum <
    (2 * st.chains.length + 1) * unusedCount ti st.used +
      (st.chains.map (chainEndWeight st.used)).sum
  rw [hlen]
  exact Nat.lt_of_lt_of_le
    (measure_arith st.chains.length (st.chains.length - 1) (unusedCount ti st.used)
      (unusedCount ti u2) _ (Nat.sub_le _ _) hU hE)
    (Nat.le_add_right _ _)

/-- Extending one chain at an already-used endpoint id (a non-progress
link) still shrinks the measure: the matched open end stops naming a
used id. -/
theorem measure_lt_of_swap (ti : List Link) (st : ChainState) (i : Nat)
    (ext c : WorkChain) (hc : st.chains[i]? = some c)
    (hwc : chainEndWeight st.used c = chainEndWeight st.used ext + 1) :
    chainMeasure ti ⟨st.chains.set i ext, st.used⟩ < chainMeasure ti st := by
  have hsum := sum_map_set (chainEndWeight st.used) st.chains i ext c hc
  show (2 * (st.chains.set i ext).length + 1) * unusedCount ti st.used +
      ((st.chains.set i ext).map (chainEndWeight st.used)).sum <
    (2 * st.chains.length + 1) * unusedCount ti st.used +
      (st.chains.map (chainEndWeight st.used)).sum
  rw [List.length_set]
  have hlt : ((st.chains.set i ext).map (chainEndWeight st.used)).sum <
      (st.chains.map (chainEndWeight st.used)).sum := by omega
  exact Nat.add_lt_add_left hlt _

/-- Every successfully applied link strictly decreases the measure. -/
theorem tryLink_measure (ti : List Link) (st : ChainState) (l : Link)
    (hl : l ∈ ti) (st2 : ChainState) (h : tryLink st l = some st2) :
    chainMeasure ti st2 < chainMeasure ti st := by
  unfold tryLink at h
  by_cases hguard : l.breakend1.id ∈ st.used ∧ l.breakend2.id ∈ st.used
  · rw [if_pos hguard] at h; cases h
  rw [if_neg hguard] at h
  cases hf1 : findEnd st.chains l.breakend1.id with
  | none =>
    cases hf2 : findEnd st.chains l.breakend2.id with
    | none => rw [hf1, hf2] at h; cases h
    | some f2 =>
      rw [hf1, hf2] at h
      obtain ⟨i2, s2⟩ := f2
      dsimp only at h
      cases hc : st.chains[i2]? with
      | none => rw [hc] at h; cases h
      | some c =>
        rw [hc] at h
        injection h with hA
        subst hA
        by_cases hb2 : l.breakend2.id ∈ st.used
        · have hb1 : ¬ l.breakend1.id ∈ st.used := fun hb1 => hguard ⟨hb1, hb2⟩
          have hins : insertUsed st.used l.breakend2.id = st.used := by
            unfold insertUsed; rw [if_pos hb2]
          have hok := findEnd_ok st.chains l.breakend2.id
          rw [hf2] at hok
          obtain ⟨c0, hc0, hokS, hokE⟩ := hok
          dsimp only at hc0 hokS hokE
          rw [hc] at hc0
          have hcc := Option.some.inj hc0
          rw [hins]
          have h2 : endUsedWeight st.used (some l.breakend1) = 0 := by
            simp only [endUsedWeight]
            rw [if_neg hb1]
          cases s2 with
          | true =>
            obtain ⟨b0, hb0, hid⟩ := hokS rfl
            rw [← hcc] at hb0
            have h1 : endUsedWeight st.used c.startBreakend = 1 := by
              rw [hb0]
              simp only [endUsedWeight]
              rw [if_pos (show b0.id ∈ st.used by rw [hid]; exact hb2)]
            refine measure_lt_of_swap ti st i2
              ⟨c.segments ++ [makeSegment l.breakend1 l.breakend2],
               c.breakendOrder ++ [l.breakend1], some l.breakend1, c.endBreakend⟩ c hc ?_
            unfold chainEndWeight
            dsimp only
            rw [h1, h2]
            omega
          | false =>
            obtain ⟨b0, hb0, hid⟩ := hokE rfl
            rw [← hcc] at hb0
            have h1 : endUsedWeight st.used c.endBreakend = 1 := by
              rw [hb0]
              simp only [endUsedWeight]
              rw [if_pos (show b0.id ∈ st.used by rw [hid]; exact hb2)]
            refine measure_lt_of_swap ti st i2
              ⟨c.segments ++ [makeSegment l.breakend1 l.breakend2],
               c.breakendOrder ++ [l.breakend1], c.startBreakend, some l.breakend1⟩ c hc ?_
            unfold chainEndWeight
            dsimp only
            rw [h1, h2]
        · exact measure_lt_of_extend ti st i2 _ _
            (unusedCount_insert_lt ti st.used _ (breakend2_mem_tiIds ti l hl) hb2)
  | some f1 =>
    cases hf2 : findEnd st.chains l.breakend2.id with
    | none =>
      rw [hf1, hf2] at h
      obtain ⟨i1, s1⟩ := f1
      dsimp only at h
      cases hc : st.chains[i1]? with
      | none => rw [hc] at h; cases h
      | some c =>
        rw [hc] at h
        injection h with hA
        subst hA
        by_cases hb1 : l.breakend1.id ∈ st.used
        · have hb2 : ¬ l.breakend2.id ∈ st.used := fun hb2 => hguard ⟨hb1, hb2⟩
          have hins : insertUsed st.used l.breakend1.id = st.used := by
            unfold insertUsed; rw [if_pos hb1]
          have hok := findEnd_ok st.chains l.breakend1.id
          rw [hf1] at hok
          obtain ⟨c0, hc0, hokS, hokE⟩ := hok
          dsimp only at hc0 hokS hokE
          rw [hc] at hc0
          have hcc := Option.some.inj hc0
          rw [hins]
          have h2 : endUsedWeight st.used (some l.breakend2) = 0 := by
            simp only [endUsedWeight]
            rw [if_neg hb2]
          cases s1 with
          | true =>
            obtain ⟨b0, hb0, hid⟩ := hokS rfl
            rw [← hcc] at hb0
            have h1 : endUsedWeight st.used c.startBreakend = 1 := by
              rw [hb0]
              simp only [endUsedWeight]
              rw [if_pos (show b0.id ∈ st.used by rw [hid]; exact hb1)]
            refine measure_lt_of_swap ti st i1
              ⟨c.segments ++ [makeSegment l.breakend1 l.breakend2],
               c.breakendOrder ++ [l.breakend2], some l.breakend2, c.endBreakend⟩ c hc ?_
            unfold chainEndWeight
            dsimp only
            rw [h1, h2]
            omega
          | false =>
            obtain ⟨b0, hb0, hid⟩ := hokE rfl
            rw [← hcc] at hb0
            have h1 : endUsedWeight st.used c.endBreakend = 1 := by
              rw [hb0]
              simp only [endUsedWeight]
              rw [if_pos (show b0.id ∈ st.used by rw [hid]; exact hb1)]
            refine measure_lt_of_swap ti st i1
              ⟨c.segments ++ [makeSegment l.breakend1 l.breakend2],
               c.breakendOrder ++ [l.breakend2], c.startBreakend, some l.breakend2⟩ c hc ?_
            unfold chainEndWeight
            dsimp only
            rw [h1, h2]
        · exact measure_lt_of_extend ti st i1 _ _
            (unusedCount_insert_lt ti st.used _ (breakend1_mem_tiIds ti l hl) hb1)
    | some f2 =>
      rw [hf1, hf2] at h
      obtain ⟨i1, s1⟩ := f1
      obtain ⟨i2, s2⟩ := f2
      dsimp only at h
      by_cases hij : i1 ≠ i2
      · rw [if_pos hij] at h
        cases hc1 : st.chains[i1]? with
        | none => rw [hc1] at h; cases h
        | some c1 =>
          cases hc2 : st.chains[i2]? with
          | none => rw [hc1, hc2] at h; cases h
          | some c2 =>
            rw [hc1, hc2] at h
            injection h with hA
            subst hA
            have hj : i2 < st.chains.length := by
              rcases List.getElem?_eq_some.mp hc2 with ⟨hb, _⟩
              exact hb
            refine measure_lt_of_merge ti st i1 i2 _ _ hj ?_
            by_cases hb1 : l.breakend1.id ∈ st.used
            · have hb2 : ¬ l.breakend2.id ∈ st.used := fun hb2 => hguard ⟨hb1, hb2⟩
              have hins : insertUsed st.used l.breakend1.id = st.used := by
                unfold insertUsed; rw [if_pos hb1]
              rw [hins]
              exact unusedCount_insert_lt ti st.used _ (breakend2_mem_tiIds ti l hl) hb2
            · exact Nat.lt_of_le_of_lt (unusedCount_insert_le ti _ _)
                (unusedCount_insert_lt ti st.used _ (breakend1_mem_tiIds ti l hl) hb1)
      · rw [if_neg hij] at h
        cases h

/-- Any state produced by one greedy pass comes from applying some
candidate TI link. -/
theorem stepChains_some (ti : List Link) (bs : List Breakend) (st st2 : ChainState)
    (h : stepChains ti bs st = some st2) :
    ∃ l, l ∈ ti ∧ tryLink st l = some st2 := by
  unfold stepChains at h
  rcases List.exists_of_findSome?_eq_some h with ⟨p, hp, htl⟩
  refine ⟨p.1, ?_, htl⟩
  unfold scoredSorted at hp
  rw [(List.perm_insertionSort _ _).mem_iff] at hp
  rcases List.mem_map.mp hp with ⟨l0, hl0, hpe⟩
  rw [← hpe]
  exact List.mem_of_mem_filter hl0

/-- Once the fuel exceeds the measure, the loop has reached a state on
which a full pass applies nothing. -/
theorem chainsLoop_fix (ti : List Link) (bs : List Breakend) :
    ∀ (n : Nat) (st : ChainState), chainMeasure ti st < n →
      stepChains ti bs (chainsLoop ti bs n st) = none := by
  intro n
  induction n with
  | zero => intro st h; exact absurd h (Nat.not_lt_zero _)
  | succ n ih =>
    intro st h
    cases hstep : stepChains ti bs st with
    | none =>
      have hcl : chainsLoop ti bs (n + 1) st = st := by
        simp only [chainsLoop, hstep]
      rw [hcl]
      exact hstep
    | some st2 =>
      have hcl : chainsLoop ti bs (n + 1) st = chainsLoop ti bs n st2 := by
        simp only [chainsLoop, hstep]
      rw [hcl]
      apply ih
      rcases stepChains_some ti bs st st2 hstep with ⟨m, hm, htl⟩
      have hdec := tryLink_measure ti st m hm st2 htl
      omega

/-- C10: for every input (breakends, SV links, TI links) the greedy
extend/merge loop of `buildChains` terminates.  Each applied link
strictly decreases the measure `chainMeasure` (merging removes a chain,
absorbing a fresh endpoint id shrinks the unused-id pool, and a link
whose matched id is already used flips that open end to an unused id),
so after at most `chainMeasure + 1` passes — exactly the fuel
`buildChains` supplies to `chainsLoop` — a full pass over the re-sorted
TI list applies no link and the `while (changed)` loop exits. -/
theorem buildChains_terminates (bs : List Breakend) (sv ti : List Link) :
    stepChains ti bs
      (chainsLoop ti bs (chainMeasure ti (initChainState sv) + 1) (initChainState sv)) =
    none :=
  chainsLoop_fix ti bs (chainMeasure ti (initChainState sv) + 1) (initChainState sv)
    (Nat.lt_succ_self _)

end DerivChr
